import Mathlib

/-!
# Verification of the `rust_hash` hash-table library

Shallow embedding of `src/hash.rs` (the `Field` key model, the `HashTable`
with its three collision-resolution schemes, `insert`, `get_value`,
`extend`) and of `src/join.rs` (`HashEqJoin::join`), together with proofs
and refutations of the frozen claims about the specification.

Modelling conventions:

* Rust `usize` values are modelled as `Nat`; the arithmetic performed by the
  library (`% 10`, `/ 10`, `/ 100`, `% BUCKET_NUMBER`, small sums) never
  overflows a 64-bit machine word for genuine hash values, so plain `Nat`
  arithmetic coincides with the machine arithmetic on every execution we
  consider.
* The four external hash functions (FarmHash, MurmurHash3, t1ha, std)
  are third-party crates, not part of this repository; the `function`
  field of the table is modelled as the selected per-`Field` hash
  `hashF : Field → Nat`, exactly the way `get_bucket_index` and
  `get_indexes` consume it (both combine `hashF key.0` and `hashF key.1`
  the same way for all four enum variants).
* `load_factor: f64` is modelled as an exact fraction `num / den` of
  naturals; for every load factor appearing in the repository
  (0.75, 0.9, 1.0) and every bucket size reachable in our statements,
  `⌊S * lf⌋` computed in `f64` equals `S * num / den` in `Nat`.
* The mutually recursive `insert` / `extend` / `hopscotch_insert` cluster
  (which genuinely may not terminate) is modelled by a fuel-indexed
  interpreter `exec`; `none` means the fuel ran out or the Rust code
  panicked (e.g. the `assert!` in `extend`).
* Vector indexing is modelled with `List.getD`/`List.set`; all executions
  analysed below stay in bounds, where Rust indexing is total.
-/

namespace RustHash

set_option maxRecDepth 16000

/-- `Field` from `src/hash.rs`: an `i32` or a string (kept as its byte list). -/
inductive Field where
  | IntField : Int → Field
  | StringField : List Nat → Field
deriving DecidableEq, Repr

/-- Little-endian bytes of an 8-byte `usize`. -/
def usizeLeBytes (n : Nat) : List Nat :=
  (List.range 8).map (fun j => n / 256 ^ j % 256)

/-- Little-endian bytes of an `i32` (two's complement). -/
def i32LeBytes (x : Int) : List Nat :=
  (List.range 4).map (fun j => (x % 2 ^ 32).toNat / 256 ^ j % 256)

/-- `Field::to_bytes` from `src/hash.rs`.  For a string of length `> 128`
the Rust expression `128 - s_bytes.len()` underflows `usize` and the call
panics; that case is modelled as `none`. -/
def Field.to_bytes : Field → Option (List Nat)
  | Field.IntField x => some (i32LeBytes x)
  | Field.StringField s =>
      if 128 < s.length then none
      else some (usizeLeBytes s.length ++ (s ++ List.replicate (128 - s.length) 0))

/-- `HashScheme` from `src/hash.rs`. -/
inductive HashScheme where
  | LinearProbe | RobinHood | Hopscotch
deriving DecidableEq, Repr

/-- `ExtendOption` from `src/hash.rs`. -/
inductive ExtendOption where
  | ExtendBucketSize | ExtendBucketNumber
deriving DecidableEq, Repr

/-- `usize::MAX`. -/
def USIZE_MAX : Nat := 2 ^ 64 - 1

/-- `HashNode` from `src/hash.rs`. -/
structure HashNode where
  key : Field × Field
  value : Nat
  taken : Bool
  dis : Nat
deriving DecidableEq, Repr

/-- `HashNode::default()`. -/
def defaultNode : HashNode :=
  { key := (Field.IntField 0, Field.IntField 0), value := 0,
    taken := false, dis := USIZE_MAX }

/-- `HashTable` from `src/hash.rs`.  The `function : HashFunction` field is
modelled by the per-field hash `hashF` it selects (see the file header). -/
structure HashTable where
  buckets : List (List HashNode)
  taken_count : List Nat
  BUCKET_NUMBER : Nat
  BUCKET_SIZE : Nat
  hashF : Field → Nat
  scheme : HashScheme
  H : Nat
  extend_op : ExtendOption
  hop_info : List (List Nat)
  load_factor : Nat × Nat

/-- `HashTable::new` (same argument order as the Rust constructor). -/
def HashTable.new (b_size b_num : Nat) (func : Field → Nat) (sche : HashScheme)
    (h : Nat) (op : ExtendOption) (load_f : Nat × Nat) : HashTable :=
  { buckets := List.replicate b_num (List.replicate b_size defaultNode)
    taken_count := List.replicate b_num 0
    BUCKET_NUMBER := b_num
    BUCKET_SIZE := b_size
    hashF := func
    scheme := sche
    H := h
    extend_op := op
    hop_info := List.replicate b_num (List.replicate b_size 0)
    load_factor := load_f }

/-- `buckets[b][i]` (out of range reads yield the default node; every
execution analysed below stays in bounds). -/
def HashTable.nodeAt (t : HashTable) (b i : Nat) : HashNode :=
  (t.buckets.getD b []).getD i defaultNode

/-- `hop_info[b][i]`. -/
def HashTable.hopAt (t : HashTable) (b i : Nat) : Nat :=
  (t.hop_info.getD b []).getD i 0

/-- `taken_count[b]`. -/
def HashTable.countAt (t : HashTable) (b : Nat) : Nat :=
  t.taken_count.getD b 0

/-- `buckets[b][i] = nd`. -/
def setNode (t : HashTable) (b i : Nat) (nd : HashNode) : HashTable :=
  { t with buckets := t.buckets.set b ((t.buckets.getD b []).set i nd) }

/-- `hop_info[b][i] = x`. -/
def setHop (t : HashTable) (b i x : Nat) : HashTable :=
  { t with hop_info := t.hop_info.set b ((t.hop_info.getD b []).set i x) }

/-- `taken_count[b] += 1`. -/
def incCount (t : HashTable) (b : Nat) : HashTable :=
  { t with taken_count := t.taken_count.set b (t.countAt b + 1) }

/-- The bucket index computed in `get_bucket_index`:
`(hash(key.0) % 10 + hash(key.1) % 10) % BUCKET_NUMBER`. -/
def bucketHash (t : HashTable) (k : Field × Field) : Nat :=
  (t.hashF k.1 % 10 + t.hashF k.2 % 10) % t.BUCKET_NUMBER

/-- The in-bucket index computed in `get_indexes`:
`(hash(key.0) / 10 + hash(key.1) / 100) % BUCKET_SIZE`. -/
def slotHash (t : HashTable) (k : Field × Field) : Nat :=
  (t.hashF k.1 / 10 + t.hashF k.2 / 100) % t.BUCKET_SIZE

/-- `HashTable::get_bucket_index`. -/
def get_bucket_index (t : HashTable) (k : Field × Field) : Option Nat :=
  if t.BUCKET_SIZE ≤ t.countAt (bucketHash t k) then none
  else some (bucketHash t k)

/-- The `for _ in 0..BUCKET_SIZE` loop of `HashTable::linear_probe`;
the counter `n` is the number of remaining iterations. -/
def linearProbeGo (t : HashTable) (k : Field × Field) (b : Nat) :
    Nat → Nat → Nat
  | 0, i => i
  | n + 1, i =>
      if (t.nodeAt b i).taken = false then i
      else if (t.nodeAt b i).key = k then i
      else linearProbeGo t k b n ((i + 1) % t.BUCKET_SIZE)

/-- `HashTable::linear_probe` (always returns `Some`). -/
def linear_probe (t : HashTable) (k : Field × Field) (b i : Nat) : Option Nat :=
  some (linearProbeGo t k b t.BUCKET_SIZE i)

/-- The `for _ in 0..BUCKET_SIZE` loop of `HashTable::robin_hood`. -/
def robinHoodGo (t : HashTable) (k : Field × Field) (b : Nat) :
    Nat → Nat → Nat → Nat × Nat
  | 0, i, d => (i, d)
  | n + 1, i, d =>
      if (t.nodeAt b i).taken = false then (i, d)
      else if (t.nodeAt b i).key = k then (i, d)
      else if (t.nodeAt b i).dis < d then (i, d)
      else robinHoodGo t k b n ((i + 1) % t.BUCKET_SIZE) (d + 1)

/-- `HashTable::robin_hood` (always returns `Some`). -/
def robin_hood (t : HashTable) (k : Field × Field) (b i : Nat) :
    Option (Nat × Nat) :=
  some (robinHoodGo t k b t.BUCKET_SIZE i 0)

/-- The final re-check of `HashTable::get_indexes`
(`taken && key differs → None`). -/
def indexCheck (t : HashTable) (k : Field × Field) (b i d : Nat) :
    Option (Nat × Nat × Nat) :=
  if (t.nodeAt b i).taken = true ∧ (t.nodeAt b i).key ≠ k then none
  else some (b, i, d)

/-- `HashTable::get_indexes`. -/
def get_indexes (t : HashTable) (k : Field × Field) :
    Option (Nat × Nat × Nat) :=
  match get_bucket_index t k with
  | none => none
  | some bucket_index =>
      if (t.nodeAt bucket_index (slotHash t k)).taken = true then
        match t.scheme with
        | HashScheme.LinearProbe =>
            match linear_probe t k bucket_index (slotHash t k) with
            | some i => indexCheck t k bucket_index i 0
            | none => none
        | HashScheme.Hopscotch => some (bucket_index, slotHash t k, 0)
        | HashScheme.RobinHood =>
            match robin_hood t k bucket_index (slotHash t k) with
            | some r => some (bucket_index, r.1, r.2)
            | none => none
      else indexCheck t k bucket_index (slotHash t k) 0

/-- The `for n in (0..H).rev()` loop in the Hopscotch branch of
`HashTable::get_value`; `ns` is the list of remaining bit positions.
The test `hop & (1 << n) != 0` is `Nat.testBit`.  Note the comparison the
source performs: it returns the slot's value when BOTH key components
DIFFER from the probe key. -/
def hopLookupGo (t : HashTable) (k : Field × Field) (b i : Nat) :
    List Nat → Option Nat
  | [] => none
  | n :: rest =>
      if (t.hopAt b i).testBit n then
        if (t.nodeAt b (i + (t.H - 1 - n))).key.1 ≠ k.1 ∧
            (t.nodeAt b (i + (t.H - 1 - n))).key.2 ≠ k.2 then
          some (t.nodeAt b (i + (t.H - 1 - n))).value
        else hopLookupGo t k b i rest
      else hopLookupGo t k b i rest

/-- `HashTable::get_value`. -/
def get_value (t : HashTable) (k : Field × Field) : Option Nat :=
  match get_indexes t k with
  | none => none
  | some (b, i, _) =>
      if t.scheme = HashScheme.Hopscotch then
        hopLookupGo t k b i (List.range t.H).reverse
      else some (t.nodeAt b i).value

/-- `⌊BUCKET_SIZE as f64 * load_factor⌋ as usize`, the per-bucket load
limit tested by the pre-insert loop (`load_factor = num / den`). -/
def loadLimit (t : HashTable) : Nat :=
  t.BUCKET_SIZE * t.load_factor.1 / t.load_factor.2

/-- Neighborhood scan of `hopscotch_insert` (the `for i in index..end_of_H`
loop): first empty slot (`(true, i)`) or first slot holding the same key
(`(false, i)`); `n` is the number of slots left to scan. -/
def nbScanGo (t : HashTable) (k : Field × Field) (b : Nat) :
    Nat → Nat → Option (Bool × Nat)
  | 0, _ => none
  | n + 1, i =>
      if (t.nodeAt b i).taken = false then some (true, i)
      else if (t.nodeAt b i).key = k then some (false, i)
      else nbScanGo t k b n (i + 1)

/-- First untaken slot at index `≥ i` (the `for empty_index in
end_of_H..BUCKET_SIZE` search); `n` is the number of slots left. -/
def firstEmptyGo (t : HashTable) (b : Nat) : Nat → Nat → Option Nat
  | 0, _ => none
  | n + 1, i =>
      if (t.nodeAt b i).taken = false then some i
      else firstEmptyGo t b n (i + 1)

/-- First candidate index with a nonzero hop bitmap (the
`for candidate_index in start_index..start_index + H` scan). -/
def firstHopGo (t : HashTable) (b : Nat) : Nat → Nat → Option Nat
  | 0, _ => none
  | n + 1, c =>
      if 0 < t.hopAt b c then some c else firstHopGo t b n (c + 1)

/-- The `for n in (0..H).rev()` scan for the first set bit of a hop word. -/
def topBitGo (x : Nat) : List Nat → Option Nat
  | [] => none
  | n :: rest => if x.testBit n then some n else topBitGo x rest

/-- Highest set bit below `H` in the order the source scans. -/
def topBitBelow (x H : Nat) : Option Nat :=
  topBitGo x (List.range H).reverse

/-- Write a fresh occupied node and bump the bucket's occupancy counter
(the plain insertion branches of `insert`). -/
def placeNode (t : HashTable) (b i : Nat) (k : Field × Field) (v d : Nat) :
    HashTable :=
  incCount (setNode t b i { key := k, value := v, taken := true, dis := d }) b

/-- Overwrite a node without touching the counter (the Robin Hood
displacement branch of `insert`). -/
def replaceNode (t : HashTable) (b i : Nat) (k : Field × Field) (v d : Nat) :
    HashTable :=
  setNode t b i { key := k, value := v, taken := true, dis := d }

/-- `buckets[b][i].value += v`. -/
def bumpValue (t : HashTable) (b i v : Nat) : HashTable :=
  setNode t b i { t.nodeAt b i with value := (t.nodeAt b i).value + v }

/-- Hopscotch placement: write the node at slot `i`, OR the offset bit into
`hop_info[b][index]`, bump the counter. -/
def placeHop (t : HashTable) (b index i : Nat) (k : Field × Field) (v : Nat) :
    HashTable :=
  let t1 := setNode t b i { key := k, value := v, taken := true, dis := 0 }
  let t2 := setHop t1 b index (t1.hopAt b index ||| 2 ^ (t.H - 1 - (i - index)))
  incCount t2 b

/-- One Hopscotch swap: move the occupant of `src` (claimed by bit `n` of
`hop_info[b][c]`) into the empty slot `empty`, clear bit `n`
(`hop -= 2^n`), set the bit for the new offset (`hop += 2^(H-1-(empty-c))`). -/
def swapMove (t : HashTable) (b c n src empty : Nat) : HashTable :=
  let srcNode := t.nodeAt b src
  let t1 := setNode t b empty { srcNode with taken := true }
  let t2 := setNode t1 b src defaultNode
  setHop t2 b c (t.hopAt b c - 2 ^ n + 2 ^ (t.H - 1 - (empty - c)))

/-- The freshly allocated table of `HashTable::extend`, dimensions doubled
according to the growth policy, configuration copied. -/
def freshDoubled (t : HashTable) : HashTable :=
  match t.extend_op with
  | ExtendOption.ExtendBucketSize =>
      { buckets := List.replicate t.BUCKET_NUMBER
          (List.replicate (t.BUCKET_SIZE * 2) defaultNode)
        taken_count := List.replicate t.BUCKET_NUMBER 0
        BUCKET_NUMBER := t.BUCKET_NUMBER
        BUCKET_SIZE := t.BUCKET_SIZE * 2
        hashF := t.hashF
        scheme := t.scheme
        H := t.H
        extend_op := t.extend_op
        hop_info := List.replicate t.BUCKET_NUMBER
          (List.replicate (t.BUCKET_SIZE * 2) 0)
        load_factor := t.load_factor }
  | ExtendOption.ExtendBucketNumber =>
      { buckets := List.replicate (t.BUCKET_NUMBER * 2)
          (List.replicate t.BUCKET_SIZE defaultNode)
        taken_count := List.replicate (t.BUCKET_NUMBER * 2) 0
        BUCKET_NUMBER := t.BUCKET_NUMBER * 2
        BUCKET_SIZE := t.BUCKET_SIZE
        hashF := t.hashF
        scheme := t.scheme
        H := t.H
        extend_op := t.extend_op
        hop_info := List.replicate (t.BUCKET_NUMBER * 2)
          (List.replicate t.BUCKET_SIZE 0)
        load_factor := t.load_factor }

/-- The occupied nodes of the old table, in the iteration order of
`extend` (bucket by bucket, slot by slot). -/
def takenNodes (t : HashTable) : List HashNode :=
  t.buckets.flatten.filter (fun nd => nd.taken)

/-- The pending activation frames of the mutually recursive
`insert` / `extend` / `hopscotch_insert` cluster:
`ins` = `HashTable::insert`,
`pre` = its load-factor pre-check loop (remaining bucket indices `is`),
`ext` = `HashTable::extend`,
`reins` = the re-insertion loop of `extend`,
`hop` = `HashTable::hopscotch_insert`,
`swapl` = its `'inner` swap loop. -/
inductive Call where
  | ins (k : Field × Field) (v : Nat)
  | pre (k : Field × Field) (v : Nat) (is : List Nat)
  | ext
  | reins (nds : List HashNode)
  | hop (k : Field × Field) (v : Nat) (b index : Nat)
  | swapl (k : Field × Field) (v : Nat) (b index empty start : Nat)

/-- Fuel-indexed interpreter for the recursive cluster.  `none` = the fuel
ran out, or the Rust code would have panicked. -/
def exec : Nat → HashTable → Call → Option HashTable
  | 0, _, _ => none
  | fuel + 1, t, c =>
    match c with
    | Call.ins k v =>
        match exec fuel t (Call.pre k v (List.range t.BUCKET_NUMBER)) with
        | none => none
        | some t1 =>
            match get_indexes t1 k with
            | some (b, i, d) =>
                if t1.scheme = HashScheme.Hopscotch then
                  exec fuel t1 (Call.hop k v b i)
                else if (t1.nodeAt b i).key = k then
                  some (bumpValue t1 b i v)
                else if (t1.nodeAt b i).taken = false then
                  some (placeNode t1 b i k v d)
                else
                  let ori := t1.nodeAt b i
                  exec fuel (replaceNode t1 b i k v d)
                    (Call.ins ori.key ori.value)
            | none =>
                match exec fuel t1 Call.ext with
                | none => none
                | some t2 => exec fuel t2 (Call.ins k v)
    | Call.pre k v is =>
        match is with
        | [] => some t
        | i :: rest =>
            if loadLimit t ≤ t.countAt i then
              match exec fuel t Call.ext with
              | none => none
              | some t1 =>
                  match exec fuel t1 (Call.ins k v) with
                  | none => none
                  | some t2 => exec fuel t2 (Call.pre k v rest)
            else exec fuel t (Call.pre k v rest)
    | Call.ext =>
        if t.buckets.length = 0 then none
        else exec fuel (freshDoubled t) (Call.reins (takenNodes t))
    | Call.reins nds =>
        match nds with
        | [] => some t
        | nd :: rest =>
            match exec fuel t (Call.ins nd.key nd.value) with
            | none => none
            | some t1 => exec fuel t1 (Call.reins rest)
    | Call.hop k v b index =>
        if t.H ^ 2 ≤ t.hopAt b index then
          match exec fuel t Call.ext with
          | none => none
          | some t1 => exec fuel t1 (Call.ins k v)
        else
          let endH := min (index + t.H) t.BUCKET_SIZE
          match nbScanGo t k b (endH - index) index with
          | some (true, i) => some (placeHop t b index i k v)
          | some (false, i) => some (bumpValue t b i v)
          | none =>
              match firstEmptyGo t b (t.BUCKET_SIZE - endH) endH with
              | some e => exec fuel t (Call.swapl k v b index e (e - (t.H - 1)))
              | none =>
                  match exec fuel t Call.ext with
                  | none => none
                  | some t1 => exec fuel t1 (Call.ins k v)
    | Call.swapl k v b index empty start =>
        match firstHopGo t b t.H start with
        | none =>
            match exec fuel t Call.ext with
            | none => none
            | some t1 => exec fuel t1 (Call.ins k v)
        | some c =>
            match topBitBelow (t.hopAt b c) t.H with
            | none =>
                if empty - index < t.H then some (placeHop t b index empty k v)
                else exec fuel t (Call.swapl k v b index empty
                  (empty - (t.H - 1)))
            | some n =>
                let src := c + (t.H - 1 - n)
                if empty ≤ src then
                  match exec fuel t Call.ext with
                  | none => none
                  | some t1 => exec fuel t1 (Call.ins k v)
                else
                  let t1 := swapMove t b c n src empty
                  if src - index < t.H then
                    some (placeHop t1 b index src k v)
                  else exec fuel t1 (Call.swapl k v b index src
                    (src - (t.H - 1)))

/-- `HashTable::insert`. -/
def insertF (fuel : Nat) (t : HashTable) (k : Field × Field) (v : Nat) :
    Option HashTable :=
  exec fuel t (Call.ins k v)

/-- `HashTable::extend`. -/
def extendF (fuel : Nat) (t : HashTable) : Option HashTable :=
  exec fuel t Call.ext

/-- A sequence of `insert` calls. -/
def insertSeq (fuel : Nat) (t : HashTable) :
    List ((Field × Field) × Nat) → Option HashTable
  | [] => some t
  | (k, v) :: rest =>
      match exec fuel t (Call.ins k v) with
      | none => none
      | some t1 => insertSeq fuel t1 rest

/-- The build phase of `HashEqJoin::join`: insert every left tuple with
count 1. -/
def buildTable (fuel : Nat) (t : HashTable) (L : List (Field × Field)) :
    Option HashTable :=
  insertSeq fuel t (L.map (fun l => (l, 1)))

/-- `HashEqJoin::join`: build from `L`, then emit each `r ∈ R` (in order)
with `get_value(r) == Some(&1)`. -/
def joinF (fuel : Nat) (t : HashTable) (L R : List (Field × Field)) :
    Option (List (Field × Field)) :=
  match buildTable fuel t L with
  | none => none
  | some tbl => some (R.filter (fun r => get_value tbl r == some 1))

/-! ## Concrete instances used by the counterexamples -/

/-- A (legitimately pathological) constant hash function. -/
def zeroHash : Field → Nat := fun _ => 0

def keyA : Field × Field := (Field.IntField 1, Field.IntField 1)

def keyB : Field × Field := (Field.IntField 2, Field.IntField 2)

/-- B = 1, S = 1, LinearProbe, load factor 0.9. -/
def tableC1 : HashTable :=
  HashTable.new 1 1 zeroHash HashScheme.LinearProbe 4
    ExtendOption.ExtendBucketSize (9, 10)

/-- B = 1, S = 2, LinearProbe, load factor 0.9; stays fresh. -/
def tableC2 : HashTable :=
  HashTable.new 2 1 zeroHash HashScheme.LinearProbe 4
    ExtendOption.ExtendBucketSize (9, 10)

/-- B = 1, S = 4, LinearProbe, load factor 1.0 (no rehash interference). -/
def tableC3 : HashTable :=
  HashTable.new 4 1 zeroHash HashScheme.LinearProbe 4
    ExtendOption.ExtendBucketSize (1, 1)

/-- B = 1, S = 8, H = 4, Hopscotch, load factor 1.0. -/
def tableC4 : HashTable :=
  HashTable.new 8 1 zeroHash HashScheme.Hopscotch 4
    ExtendOption.ExtendBucketSize (1, 1)

/-- Hash function giving the four C6 keys `(IntField 1..4, IntField 0)`
home slots 0, 1, 1, 0 in a table of bucket capacity 4 (the in-bucket index
is `hash / 10 % S`). -/
def hashC6 : Field → Nat
  | Field.IntField 2 => 10
  | Field.IntField 3 => 10
  | _ => 0

def keyN (n : Int) : Field × Field := (Field.IntField n, Field.IntField 0)

/-- B = 1, S = 4, RobinHood, load factor 0.9 (the repository's default and
the value its Robin Hood test uses). -/
def tableC6 : HashTable :=
  HashTable.new 4 1 hashC6 HashScheme.RobinHood 4
    ExtendOption.ExtendBucketSize (9, 10)

/-- The four C6 inserts, count 1 each. -/
def runC6 : Option HashTable :=
  insertSeq 50 tableC6 [(keyN 1, 1), (keyN 2, 1), (keyN 3, 1), (keyN 4, 1)]


/-- The table holding only key `k` with accumulated count `s`
(the state reached by inserting `k` repeatedly, no rehash). -/
def singleKeyTable (t0 : HashTable) (k : Field × Field) (s : Nat) : HashTable :=
  placeNode t0 (bucketHash t0 k) (slotHash t0 k) k s 0


/-- The C2 invariant: a LinearProbe table in which every untaken slot is
the default node and every taken slot holds a key different from both `k`
and the default key. -/
def C2Inv (k : Field × Field) (t : HashTable) : Prop :=
  t.scheme = HashScheme.LinearProbe ∧
  (∀ b i, (t.nodeAt b i).taken = false → t.nodeAt b i = defaultNode) ∧
  (∀ b i, (t.nodeAt b i).taken = true →
    (t.nodeAt b i).key ≠ k ∧
    (t.nodeAt b i).key ≠ (Field.IntField 0, Field.IntField 0))

/-- Calls that can arise while inserting keys different from `k` (and from
the default key) into a LinearProbe table. -/
def C2Safe (k : Field × Field) : Call → Prop
  | Call.ins k' _ =>
      k' ≠ k ∧ k' ≠ (Field.IntField 0, Field.IntField 0)
  | Call.pre k' _ _ =>
      k' ≠ k ∧ k' ≠ (Field.IntField 0, Field.IntField 0)
  | Call.ext => True
  | Call.reins nds => ∀ nd ∈ nds,
      nd.key ≠ k ∧ nd.key ≠ (Field.IntField 0, Field.IntField 0)
  | Call.hop _ _ _ _ => False
  | Call.swapl _ _ _ _ _ _ => False

/-! ## The joint C5/C8 structural invariant -/

/-- Number of occupied slots of one bucket row. -/
def countTaken (l : List HashNode) : Nat :=
  (l.filter (fun nd => nd.taken)).length

/-- Structural well-formedness: the outer vectors have length
`BUCKET_NUMBER`, every row has length `BUCKET_SIZE`, and both dimensions
are positive (as they are for every table the repository constructs). -/
def WF (t : HashTable) : Prop :=
  t.buckets.length = t.BUCKET_NUMBER ∧
  t.taken_count.length = t.BUCKET_NUMBER ∧
  t.hop_info.length = t.BUCKET_NUMBER ∧
  (∀ b, b < t.BUCKET_NUMBER →
    (t.buckets.getD b []).length = t.BUCKET_SIZE) ∧
  (∀ b, b < t.BUCKET_NUMBER →
    (t.hop_info.getD b []).length = t.BUCKET_SIZE) ∧
  0 < t.BUCKET_SIZE ∧ 0 < t.BUCKET_NUMBER

/-- C8 as a state predicate: each `taken_count[b]` counts the occupied
slots of `buckets[b]`. -/
def CountOk (t : HashTable) : Prop :=
  ∀ b, b < t.BUCKET_NUMBER →
    t.countAt b = countTaken (t.buckets.getD b [])

/-- C5 as a state predicate, for Hopscotch tables: every occupied slot
lies in the `H`-window of its key's home slot, and bit `n` of
`hop_info[b][h]` is set exactly when slot `h + (H-1-n)` exists, is
occupied, and holds a key whose home slot is `h` (so no other bitmap bit
claims that slot); every hop word stays below `2 ^ H`. -/
def HopOk (t : HashTable) : Prop :=
  t.scheme = HashScheme.Hopscotch →
    ∀ b, b < t.BUCKET_NUMBER →
      (∀ j, j < t.BUCKET_SIZE → (t.nodeAt b j).taken = true →
        slotHash t (t.nodeAt b j).key ≤ j ∧
        j < slotHash t (t.nodeAt b j).key + t.H) ∧
      (∀ h, h < t.BUCKET_SIZE →
        t.hopAt b h < 2 ^ t.H ∧
        (∀ n, n < t.H →
          ((t.hopAt b h).testBit n = true ↔
            h + (t.H - 1 - n) < t.BUCKET_SIZE ∧
            (t.nodeAt b (h + (t.H - 1 - n))).taken = true ∧
            slotHash t (t.nodeAt b (h + (t.H - 1 - n))).key = h)))

/-- The joint invariant maintained by the whole insert cluster. -/
def Inv (t : HashTable) : Prop := WF t ∧ CountOk t ∧ HopOk t

/-- Preconditions satisfied by every pending frame at its call sites:
`hop` is only entered from `insert` with the key's own bucket and home
slot; the `swapl` loop keeps an empty slot beyond the home window and its
scan start `H - 1` slots earlier. -/
def CallOk (t : HashTable) : Call → Prop
  | Call.hop k _ b index =>
      t.scheme = HashScheme.Hopscotch ∧ b = bucketHash t k ∧
      index = slotHash t k
  | Call.swapl k _ b index empty st =>
      t.scheme = HashScheme.Hopscotch ∧ b = bucketHash t k ∧
      index = slotHash t k ∧ empty < t.BUCKET_SIZE ∧
      (t.nodeAt b empty).taken = false ∧ index + t.H ≤ empty ∧
      st = empty - (t.H - 1)
  | _ => True

/-- The result of two Hopscotch inserts on `tableC4` (C5 witness). -/
def runC5 : HashTable :=
  (insertSeq 30 tableC4 [(keyA, 1), (keyB, 2)]).getD tableC4

/-- The result of three Hopscotch inserts, one a repeat (C8 witness). -/
def runC8 : HashTable :=
  (insertSeq 30 tableC4 [(keyA, 1), (keyB, 2), (keyA, 3)]).getD tableC4

/-! ## Generic list and table access lemmas -/

theorem getD_set_self {α : Type} (l : List α) (i : Nat) (x d : α)
    (h : i < l.length) : (l.set i x).getD i d = x := by
  simp [List.getD_eq_getElem?_getD, List.getElem?_set_self h]

theorem getD_set_ne {α : Type} (l : List α) (i j : Nat) (x d : α)
    (h : i ≠ j) : (l.set i x).getD j d = l.getD j d := by
  simp [List.getD_eq_getElem?_getD, List.getElem?_set_ne h]

theorem getD_replicate {α : Type} (n i : Nat) (a d : α) :
    (List.replicate n a).getD i d = if i < n then a else d := by
  simp only [List.getD_eq_getElem?_getD, List.getElem?_replicate]
  split <;> rfl

theorem nodeAt_new (S B : Nat) (h : Field → Nat) (sche : HashScheme)
    (H0 : Nat) (op : ExtendOption) (lf : Nat × Nat) (b i : Nat) :
    (HashTable.new S B h sche H0 op lf).nodeAt b i = defaultNode := by
  unfold HashTable.new HashTable.nodeAt
  simp only [getD_replicate]
  split
  · simp only [getD_replicate]
    split <;> rfl
  · rfl

theorem countAt_new (S B : Nat) (h : Field → Nat) (sche : HashScheme)
    (H0 : Nat) (op : ExtendOption) (lf : Nat × Nat) (b : Nat) :
    (HashTable.new S B h sche H0 op lf).countAt b = 0 := by
  unfold HashTable.new HashTable.countAt
  simp only [getD_replicate]
  split <;> rfl

theorem hopAt_new (S B : Nat) (h : Field → Nat) (sche : HashScheme)
    (H0 : Nat) (op : ExtendOption) (lf : Nat × Nat) (b i : Nat) :
    (HashTable.new S B h sche H0 op lf).hopAt b i = 0 := by
  unfold HashTable.new HashTable.hopAt
  simp only [getD_replicate]
  split
  · simp only [getD_replicate]
    split <;> rfl
  · rfl

theorem nodeAt_setNode (t : HashTable) (b i : Nat) (nd : HashNode)
    (b' i' : Nat) :
    (setNode t b i nd).nodeAt b' i' =
      if b' = b ∧ i' = i ∧ b < t.buckets.length ∧
          i < (t.buckets.getD b []).length
      then nd else t.nodeAt b' i' := by
  show (((t.buckets.set b _).getD b' []).getD i' defaultNode) = _
  by_cases hb : b' = b
  · subst hb
    by_cases hbl : b' < t.buckets.length
    · rw [getD_set_self _ _ _ _ hbl]
      by_cases hi : i' = i
      · subst hi
        by_cases hil : i' < (t.buckets.getD b' []).length
        · rw [getD_set_self _ _ _ _ hil, if_pos ⟨rfl, rfl, hbl, hil⟩]
        · rw [List.set_eq_of_length_le (by omega),
            if_neg (fun hc => hil hc.2.2.2)]
          rfl
      · rw [getD_set_ne _ _ _ _ _ (by omega), if_neg (fun hc => hi hc.2.1)]
        rfl
    · rw [List.set_eq_of_length_le (by omega),
        if_neg (fun hc => hbl hc.2.2.1)]
      rfl
  · rw [getD_set_ne _ _ _ _ _ (fun hq => hb hq.symm),
      if_neg (fun hc => hb hc.1)]
    rfl

theorem countAt_incCount (t : HashTable) (b b' : Nat) :
    (incCount t b).countAt b' =
      if b' = b ∧ b < t.taken_count.length then t.countAt b + 1
      else t.countAt b' := by
  show ((t.taken_count.set b _).getD b' 0) = _
  by_cases hb : b' = b
  · subst hb
    by_cases hbl : b' < t.taken_count.length
    · rw [getD_set_self _ _ _ _ hbl, if_pos ⟨rfl, hbl⟩]
    · rw [List.set_eq_of_length_le (by omega),
        if_neg (fun hc => hbl hc.2)]
      rfl
  · rw [getD_set_ne _ _ _ _ _ (fun hq => hb hq.symm),
      if_neg (fun hc => hb hc.1)]
    rfl

theorem hopAt_setHop (t : HashTable) (b i x : Nat) (b' i' : Nat) :
    (setHop t b i x).hopAt b' i' =
      if b' = b ∧ i' = i ∧ b < t.hop_info.length ∧
          i < (t.hop_info.getD b []).length
      then x else t.hopAt b' i' := by
  show (((t.hop_info.set b _).getD b' []).getD i' 0) = _
  by_cases hb : b' = b
  · subst hb
    by_cases hbl : b' < t.hop_info.length
    · rw [getD_set_self _ _ _ _ hbl]
      by_cases hi : i' = i
      · subst hi
        by_cases hil : i' < (t.hop_info.getD b' []).length
        · rw [getD_set_self _ _ _ _ hil, if_pos ⟨rfl, rfl, hbl, hil⟩]
        · rw [List.set_eq_of_length_le (by omega),
            if_neg (fun hc => hil hc.2.2.2)]
          rfl
      · rw [getD_set_ne _ _ _ _ _ (by omega), if_neg (fun hc => hi hc.2.1)]
        rfl
    · rw [List.set_eq_of_length_le (by omega),
        if_neg (fun hc => hbl hc.2.2.1)]
      rfl
  · rw [getD_set_ne _ _ _ _ _ (fun hq => hb hq.symm),
      if_neg (fun hc => hb hc.1)]
    rfl

/-! Simple projection facts: the write helpers never touch the
configuration fields, `setNode`/`setHop` never touch the counters, and so
on.  All hold by definitional unfolding. -/

@[simp] theorem setNode_scheme (t : HashTable) (b i : Nat) (nd : HashNode) :
    (setNode t b i nd).scheme = t.scheme := rfl

@[simp] theorem setNode_size (t : HashTable) (b i : Nat) (nd : HashNode) :
    (setNode t b i nd).BUCKET_SIZE = t.BUCKET_SIZE := rfl

@[simp] theorem setNode_number (t : HashTable) (b i : Nat) (nd : HashNode) :
    (setNode t b i nd).BUCKET_NUMBER = t.BUCKET_NUMBER := rfl

@[simp] theorem setNode_hashF (t : HashTable) (b i : Nat) (nd : HashNode) :
    (setNode t b i nd).hashF = t.hashF := rfl

@[simp] theorem setNode_H (t : HashTable) (b i : Nat) (nd : HashNode) :
    (setNode t b i nd).H = t.H := rfl

@[simp] theorem setNode_load (t : HashTable) (b i : Nat) (nd : HashNode) :
    (setNode t b i nd).load_factor = t.load_factor := rfl

@[simp] theorem setNode_extend_op (t : HashTable) (b i : Nat) (nd : HashNode) :
    (setNode t b i nd).extend_op = t.extend_op := rfl

@[simp] theorem setNode_taken_count (t : HashTable) (b i : Nat) (nd : HashNode) :
    (setNode t b i nd).taken_count = t.taken_count := rfl

@[simp] theorem setNode_hop_info (t : HashTable) (b i : Nat) (nd : HashNode) :
    (setNode t b i nd).hop_info = t.hop_info := rfl

@[simp] theorem setNode_countAt (t : HashTable) (b i : Nat) (nd : HashNode)
    (b' : Nat) : (setNode t b i nd).countAt b' = t.countAt b' := rfl

@[simp] theorem setNode_hopAt (t : HashTable) (b i : Nat) (nd : HashNode)
    (b' i' : Nat) : (setNode t b i nd).hopAt b' i' = t.hopAt b' i' := rfl

@[simp] theorem setHop_scheme (t : HashTable) (b i x : Nat) :
    (setHop t b i x).scheme = t.scheme := rfl

@[simp] theorem setHop_size (t : HashTable) (b i x : Nat) :
    (setHop t b i x).BUCKET_SIZE = t.BUCKET_SIZE := rfl

@[simp] theorem setHop_number (t : HashTable) (b i x : Nat) :
    (setHop t b i x).BUCKET_NUMBER = t.BUCKET_NUMBER := rfl

@[simp] theorem setHop_hashF (t : HashTable) (b i x : Nat) :
    (setHop t b i x).hashF = t.hashF := rfl

@[simp] theorem setHop_H (t : HashTable) (b i x : Nat) :
    (setHop t b i x).H = t.H := rfl

@[simp] theorem setHop_load (t : HashTable) (b i x : Nat) :
    (setHop t b i x).load_factor = t.load_factor := rfl

@[simp] theorem setHop_extend_op (t : HashTable) (b i x : Nat) :
    (setHop t b i x).extend_op = t.extend_op := rfl

@[simp] theorem setHop_buckets (t : HashTable) (b i x : Nat) :
    (setHop t b i x).buckets = t.buckets := rfl

@[simp] theorem setHop_taken_count (t : HashTable) (b i x : Nat) :
    (setHop t b i x).taken_count = t.taken_count := rfl

@[simp] theorem setHop_nodeAt (t : HashTable) (b i x : Nat) (b' i' : Nat) :
    (setHop t b i x).nodeAt b' i' = t.nodeAt b' i' := rfl

@[simp] theorem setHop_countAt (t : HashTable) (b i x : Nat) (b' : Nat) :
    (setHop t b i x).countAt b' = t.countAt b' := rfl

@[simp] theorem incCount_scheme (t : HashTable) (b : Nat) :
    (incCount t b).scheme = t.scheme := rfl

@[simp] theorem incCount_size (t : HashTable) (b : Nat) :
    (incCount t b).BUCKET_SIZE = t.BUCKET_SIZE := rfl

@[simp] theorem incCount_number (t : HashTable) (b : Nat) :
    (incCount t b).BUCKET_NUMBER = t.BUCKET_NUMBER := rfl

@[simp] theorem incCount_hashF (t : HashTable) (b : Nat) :
    (incCount t b).hashF = t.hashF := rfl

@[simp] theorem incCount_H (t : HashTable) (b : Nat) :
    (incCount t b).H = t.H := rfl

@[simp] theorem incCount_load (t : HashTable) (b : Nat) :
    (incCount t b).load_factor = t.load_factor := rfl

@[simp] theorem incCount_extend_op (t : HashTable) (b : Nat) :
    (incCount t b).extend_op = t.extend_op := rfl

@[simp] theorem incCount_buckets (t : HashTable) (b : Nat) :
    (incCount t b).buckets = t.buckets := rfl

@[simp] theorem incCount_hop_info (t : HashTable) (b : Nat) :
    (incCount t b).hop_info = t.hop_info := rfl

@[simp] theorem incCount_nodeAt (t : HashTable) (b : Nat) (b' i' : Nat) :
    (incCount t b).nodeAt b' i' = t.nodeAt b' i' := rfl

@[simp] theorem incCount_hopAt (t : HashTable) (b : Nat) (b' i' : Nat) :
    (incCount t b).hopAt b' i' = t.hopAt b' i' := rfl

/-! Unfolding equations for `exec`, one per call shape. -/

theorem exec_zero (t : HashTable) (c : Call) : exec 0 t c = none := rfl

theorem exec_ins (fuel : Nat) (t : HashTable) (k : Field × Field) (v : Nat) :
    exec (fuel + 1) t (Call.ins k v) =
      match exec fuel t (Call.pre k v (List.range t.BUCKET_NUMBER)) with
      | none => none
      | some t1 =>
          match get_indexes t1 k with
          | some (b, i, d) =>
              if t1.scheme = HashScheme.Hopscotch then
                exec fuel t1 (Call.hop k v b i)
              else if (t1.nodeAt b i).key = k then
                some (bumpValue t1 b i v)
              else if (t1.nodeAt b i).taken = false then
                some (placeNode t1 b i k v d)
              else
                exec fuel (replaceNode t1 b i k v d)
                  (Call.ins (t1.nodeAt b i).key (t1.nodeAt b i).value)
          | none =>
              match exec fuel t1 Call.ext with
              | none => none
              | some t2 => exec fuel t2 (Call.ins k v) := rfl

theorem exec_pre_nil (fuel : Nat) (t : HashTable) (k : Field × Field)
    (v : Nat) : exec (fuel + 1) t (Call.pre k v []) = some t := rfl

theorem exec_pre_cons (fuel : Nat) (t : HashTable) (k : Field × Field)
    (v : Nat) (i : Nat) (rest : List Nat) :
    exec (fuel + 1) t (Call.pre k v (i :: rest)) =
      if loadLimit t ≤ t.countAt i then
        match exec fuel t Call.ext with
        | none => none
        | some t1 =>
            match exec fuel t1 (Call.ins k v) with
            | none => none
            | some t2 => exec fuel t2 (Call.pre k v rest)
      else exec fuel t (Call.pre k v rest) := rfl

theorem exec_ext (fuel : Nat) (t : HashTable) :
    exec (fuel + 1) t Call.ext =
      if t.buckets.length = 0 then none
      else exec fuel (freshDoubled t) (Call.reins (takenNodes t)) := rfl

theorem exec_reins_nil (fuel : Nat) (t : HashTable) :
    exec (fuel + 1) t (Call.reins []) = some t := rfl

theorem exec_reins_cons (fuel : Nat) (t : HashTable) (nd : HashNode)
    (rest : List HashNode) :
    exec (fuel + 1) t (Call.reins (nd :: rest)) =
      match exec fuel t (Call.ins nd.key nd.value) with
      | none => none
      | some t1 => exec fuel t1 (Call.reins rest) := rfl

theorem exec_hop (fuel : Nat) (t : HashTable) (k : Field × Field)
    (v : Nat) (b index : Nat) :
    exec (fuel + 1) t (Call.hop k v b index) =
      if t.H ^ 2 ≤ t.hopAt b index then
        match exec fuel t Call.ext with
        | none => none
        | some t1 => exec fuel t1 (Call.ins k v)
      else
        match nbScanGo t k b (min (index + t.H) t.BUCKET_SIZE - index) index with
        | some (true, i) => some (placeHop t b index i k v)
        | some (false, i) => some (bumpValue t b i v)
        | none =>
            match firstEmptyGo t b
                (t.BUCKET_SIZE - min (index + t.H) t.BUCKET_SIZE)
                (min (index + t.H) t.BUCKET_SIZE) with
            | some e => exec fuel t (Call.swapl k v b index e (e - (t.H - 1)))
            | none =>
                match exec fuel t Call.ext with
                | none => none
                | some t1 => exec fuel t1 (Call.ins k v) := rfl

theorem exec_swapl (fuel : Nat) (t : HashTable) (k : Field × Field)
    (v : Nat) (b index empty start : Nat) :
    exec (fuel + 1) t (Call.swapl k v b index empty start) =
      match firstHopGo t b t.H start with
      | none =>
          match exec fuel t Call.ext with
          | none => none
          | some t1 => exec fuel t1 (Call.ins k v)
      | some c =>
          match topBitBelow (t.hopAt b c) t.H with
          | none =>
              if empty - index < t.H then some (placeHop t b index empty k v)
              else exec fuel t (Call.swapl k v b index empty
                (empty - (t.H - 1)))
          | some n =>
              if empty ≤ c + (t.H - 1 - n) then
                match exec fuel t Call.ext with
                | none => none
                | some t1 => exec fuel t1 (Call.ins k v)
              else
                if c + (t.H - 1 - n) - index < t.H then
                  some (placeHop (swapMove t b c n (c + (t.H - 1 - n)) empty)
                    b index (c + (t.H - 1 - n)) k v)
                else exec fuel (swapMove t b c n (c + (t.H - 1 - n)) empty)
                  (Call.swapl k v b index (c + (t.H - 1 - n))
                    ((c + (t.H - 1 - n)) - (t.H - 1))) := rfl

/-! ## Counterexample and code-behavior theorems -/

/-- C1 counterexample.  On a `B = 1, S = 1`, LinearProbe, load-factor-0.9
table, a single `insert(k, 1)` is followed by `lookup(k) = Some 2`, not
`Some 1`: the load-factor pre-check fires, `extend` + the recursive
`insert` already store the key, and the outer call then adds the count a
second time.  So count conservation fails on an insert that triggers a
rehash. -/
theorem C1_counterexample :
    (exec 30 tableC1 (Call.ins keyA 1)).bind (fun t => get_value t keyA) =
      some 2 ∧
    (exec 30 tableC1 (Call.ins keyA 1)).bind (fun t => get_value t keyA) ≠
      some 1 := by
  constructor
  · rfl
  · decide

/-- C2 counterexample.  On a fresh LinearProbe table, looking up a key that
was never inserted returns `Some 0` (the probe stops at an untaken slot and
`get_value` returns that slot's default count), not the empty option. -/
theorem C2_counterexample :
    get_value tableC2 keyA = some 0 ∧ get_value tableC2 keyA ≠ none := by
  constructor
  · rfl
  · decide

/-- C3 counterexample.  With `L = [x, x]` and `R = [x]`, the key `x` ends
with count 2 in the build table, the probe compares `get_value` with
`Some(&1)` by equality, and the join emits nothing — but the claimed
multiset intersection is `[x]` (the lookup is `Some 2`, i.e. `c ≥ 1`). -/
theorem C3_counterexample :
    joinF 50 tableC3 [keyA, keyA] [keyA] = some [] ∧
    joinF 50 tableC3 [keyA, keyA] [keyA] ≠ some [keyA] := by
  constructor
  · rfl
  · decide

/-- C4, behavior of the code at the failing input.  On a Hopscotch table,
`insert(keyA, 1)` stores the node at its home slot (checked by the first
conjunct), yet `lookup(keyA)` returns `none`: the neighborhood scan of
`get_value` compares keys with `!=` on both components, so the matching
slot is skipped.  The third conjunct shows the dual failure: after also
inserting `keyB` (count 7) into the same neighborhood, `lookup(keyA)`
returns `keyB`'s count 7 — the first examined slot whose key differs from
`keyA` in both components. -/
theorem C4_theorem :
    (exec 30 tableC4 (Call.ins keyA 1)).map
        (fun t => ((t.nodeAt 0 0).key, (t.nodeAt 0 0).value,
          (t.nodeAt 0 0).taken)) = some (keyA, 1, true) ∧
    (exec 30 tableC4 (Call.ins keyA 1)).bind (fun t => get_value t keyA) =
      none ∧
    ((exec 30 tableC4 (Call.ins keyA 5)).bind (fun t1 =>
      (exec 30 t1 (Call.ins keyB 7)).bind (fun t2 =>
        get_value t2 keyA))) = some 7 := by
  refine ⟨rfl, rfl, rfl⟩

/-- C6 counterexample.  With B = 1, S = 4, RobinHood, load factor 0.9 and
four keys whose home slots are 0, 1, 1, 0 in arrival order, the final
displacement sequence over slots 0..3 is `[0, 1, 1, 2]`, not the claimed
`[0, 1, 2, 2]`. -/
theorem C6_counterexample :
    runC6.map (fun t => ((t.buckets.getD 0 []).take 4).map HashNode.dis) =
      some [0, 1, 1, 2] ∧
    runC6.map (fun t => ((t.buckets.getD 0 []).take 4).map HashNode.dis) ≠
      some [0, 1, 2, 2] := by
  constructor
  · rfl
  · decide

/-- C6 amended.  Same scenario (home slots 0, 1, 1, 0, stated and checked
by the first conjunct): the displacement sequence after all four inserts is
`[0, 1, 1, 2]`; it is the FIRST occupant of home 1 that is pushed to
slot 3 (with displacement 2), the second occupant of home 1 sits at
slot 2 (displacement 1), and the fourth key (home 0) sits at slot 1. -/
theorem C6_theorem :
    (slotHash tableC6 (keyN 1) = 0 ∧ slotHash tableC6 (keyN 2) = 1 ∧
      slotHash tableC6 (keyN 3) = 1 ∧ slotHash tableC6 (keyN 4) = 0) ∧
    runC6.map (fun t =>
      (((t.buckets.getD 0 []).take 4).map HashNode.dis,
        (t.nodeAt 0 3).key, (t.nodeAt 0 3).dis,
        (t.nodeAt 0 2).key, (t.nodeAt 0 1).key)) =
      some ([0, 1, 1, 2], keyN 2, 2, keyN 3, keyN 4) := by
  exact ⟨⟨rfl, rfl, rfl, rfl⟩, rfl⟩

/-! ## C10: `Field::to_bytes` -/

/-- C10.  `to_bytes` of an `IntField` is its 4 little-endian bytes; for a
`StringField` of length ≤ 128 it is the 8-byte little-endian length prefix
followed by the contents zero-padded to exactly 128 bytes (136 bytes in
total); for a string longer than 128 bytes the padding length underflows
and the call panics (modelled as `none`), so `to_bytes` is total only on
strings of length ≤ 128. -/
theorem C10_theorem :
    (∀ x : Int, Field.to_bytes (Field.IntField x) = some (i32LeBytes x) ∧
      (i32LeBytes x).length = 4) ∧
    (∀ s : List Nat, s.length ≤ 128 →
      Field.to_bytes (Field.StringField s) =
        some (usizeLeBytes s.length ++ (s ++ List.replicate (128 - s.length) 0)) ∧
      (usizeLeBytes s.length).length = 8 ∧
      (s ++ List.replicate (128 - s.length) 0).length = 128 ∧
      (usizeLeBytes s.length ++ (s ++ List.replicate (128 - s.length) 0)).length = 136) ∧
    (∀ s : List Nat, 128 < s.length →
      Field.to_bytes (Field.StringField s) = none) := by
  refine ⟨fun x => ⟨rfl, by simp [i32LeBytes]⟩, fun s hs => ?_, fun s hs => ?_⟩
  · have hnot : ¬ 128 < s.length := by omega
    refine ⟨by simp [Field.to_bytes, hnot], by simp [usizeLeBytes], ?_, ?_⟩
    · simp
      omega
    · simp [usizeLeBytes]
      omega
  · simp [Field.to_bytes, hs]

/-- C10 witness: the theorem applied at `IntField (-1)`, a 2-byte string,
and a 129-byte string. -/
theorem C10_witness :
    Field.to_bytes (Field.IntField (-1)) = some (i32LeBytes (-1)) ∧
    ([2, 3] : List Nat).length ≤ 128 ∧
    Field.to_bytes (Field.StringField [2, 3]) =
      some (usizeLeBytes 2 ++ ([2, 3] ++ List.replicate 126 0)) ∧
    128 < (List.replicate 129 0 : List Nat).length ∧
    Field.to_bytes (Field.StringField (List.replicate 129 0)) = none := by
  refine ⟨(C10_theorem.1 (-1)).1, by decide, ?_, by decide, ?_⟩
  · exact (C10_theorem.2.1 [2, 3] (by decide)).1
  · exact C10_theorem.2.2 (List.replicate 129 0) (by decide)

/-! ## C1: count conservation (amended: LinearProbe, no rehash) -/

theorem loadLimit_setNode (t : HashTable) (b i : Nat) (nd : HashNode) :
    loadLimit (setNode t b i nd) = loadLimit t := rfl

theorem loadLimit_incCount (t : HashTable) (b : Nat) :
    loadLimit (incCount t b) = loadLimit t := rfl

/-- If no bucket is at the load limit, the pre-insert check loop leaves
the table unchanged. -/
theorem pre_no_trigger (k : Field × Field) (v : Nat) :
    ∀ (is : List Nat) (f : Nat) (t t1 : HashTable),
      (∀ i, t.countAt i < loadLimit t) →
      exec f t (Call.pre k v is) = some t1 → t1 = t := by
  intro is
  induction is with
  | nil =>
      intro f t t1 _ hx
      cases f with
      | zero => rw [exec_zero] at hx; cases hx
      | succ f => rw [exec_pre_nil] at hx; exact (Option.some.inj hx).symm
  | cons i rest ih =>
      intro f t t1 hc hx
      cases f with
      | zero => rw [exec_zero] at hx; cases hx
      | succ f =>
          rw [exec_pre_cons, if_neg (Nat.not_le.mpr (hc i))] at hx
          exact ih f t t1 hc hx

theorem nodeAt_singleKeyTable (t0 : HashTable) (k : Field × Field)
    (s : Nat) (b i : Nat)
    (hb0 : bucketHash t0 k < t0.buckets.length)
    (hi0 : slotHash t0 k < (t0.buckets.getD (bucketHash t0 k) []).length) :
    (singleKeyTable t0 k s).nodeAt b i =
      if b = bucketHash t0 k ∧ i = slotHash t0 k
      then { key := k, value := s, taken := true, dis := 0 }
      else t0.nodeAt b i := by
  have h0 : (singleKeyTable t0 k s).nodeAt b i =
      (setNode t0 (bucketHash t0 k) (slotHash t0 k)
        { key := k, value := s, taken := true, dis := 0 }).nodeAt b i := rfl
  rw [h0, nodeAt_setNode]
  by_cases hc : b = bucketHash t0 k ∧ i = slotHash t0 k
  · rw [if_pos ⟨hc.1, hc.2, hb0, hi0⟩, if_pos hc]
  · rw [if_neg (fun hq => hc ⟨hq.1, hq.2.1⟩), if_neg hc]

theorem countAt_singleKeyTable (t0 : HashTable) (k : Field × Field)
    (s : Nat) (b : Nat)
    (hb0 : bucketHash t0 k < t0.taken_count.length) :
    (singleKeyTable t0 k s).countAt b =
      if b = bucketHash t0 k then t0.countAt (bucketHash t0 k) + 1
      else t0.countAt b := by
  have h0 : (singleKeyTable t0 k s).countAt b =
      (incCount (setNode t0 (bucketHash t0 k) (slotHash t0 k)
        { key := k, value := s, taken := true, dis := 0 })
        (bucketHash t0 k)).countAt b := rfl
  rw [h0, countAt_incCount]
  by_cases hc : b = bucketHash t0 k
  · rw [if_pos ⟨hc, by simpa using hb0⟩, if_pos hc]
    rfl
  · rw [if_neg (fun hq => hc hq.1), if_neg hc]
    rfl



theorem setNode_setNode (t : HashTable) (b i : Nat) (nd1 nd2 : HashNode)
    (hb : b < t.buckets.length) :
    setNode (setNode t b i nd1) b i nd2 = setNode t b i nd2 := by
  unfold setNode
  have hbk : (t.buckets.set b ((t.buckets.getD b []).set i nd1)).getD b [] =
      (t.buckets.getD b []).set i nd1 := getD_set_self _ _ _ _ (by simpa using hb)
  rw [hbk, List.set_set, List.set_set]

theorem buckets_length_new (S B : Nat) (hf : Field → Nat)
    (sche : HashScheme) (H0 : Nat) (op : ExtendOption) (lf : Nat × Nat) :
    (HashTable.new S B hf sche H0 op lf).buckets.length = B := by
  simp [HashTable.new]

theorem taken_length_new (S B : Nat) (hf : Field → Nat)
    (sche : HashScheme) (H0 : Nat) (op : ExtendOption) (lf : Nat × Nat) :
    (HashTable.new S B hf sche H0 op lf).taken_count.length = B := by
  simp [HashTable.new]

theorem row_length_new (S B : Nat) (hf : Field → Nat)
    (sche : HashScheme) (H0 : Nat) (op : ExtendOption) (lf : Nat × Nat)
    (b : Nat) (hb : b < B) :
    ((HashTable.new S B hf sche H0 op lf).buckets.getD b []).length = S := by
  show ((List.replicate B (List.replicate S defaultNode)).getD b []).length = S
  rw [getD_replicate, if_pos hb, List.length_replicate]

@[simp] theorem new_size (S B : Nat) (hf : Field → Nat) (sche : HashScheme)
    (H0 : Nat) (op : ExtendOption) (lf : Nat × Nat) :
    (HashTable.new S B hf sche H0 op lf).BUCKET_SIZE = S := rfl

@[simp] theorem new_number (S B : Nat) (hf : Field → Nat) (sche : HashScheme)
    (H0 : Nat) (op : ExtendOption) (lf : Nat × Nat) :
    (HashTable.new S B hf sche H0 op lf).BUCKET_NUMBER = B := rfl

@[simp] theorem new_scheme (S B : Nat) (hf : Field → Nat) (sche : HashScheme)
    (H0 : Nat) (op : ExtendOption) (lf : Nat × Nat) :
    (HashTable.new S B hf sche H0 op lf).scheme = sche := rfl

@[simp] theorem new_hashF (S B : Nat) (hf : Field → Nat) (sche : HashScheme)
    (H0 : Nat) (op : ExtendOption) (lf : Nat × Nat) :
    (HashTable.new S B hf sche H0 op lf).hashF = hf := rfl

@[simp] theorem new_H (S B : Nat) (hf : Field → Nat) (sche : HashScheme)
    (H0 : Nat) (op : ExtendOption) (lf : Nat × Nat) :
    (HashTable.new S B hf sche H0 op lf).H = H0 := rfl

theorem bucketHash_new_lt (S B : Nat) (hf : Field → Nat) (sche : HashScheme)
    (H0 : Nat) (op : ExtendOption) (lf : Nat × Nat) (k : Field × Field)
    (hB : 1 ≤ B) :
    bucketHash (HashTable.new S B hf sche H0 op lf) k < B :=
  Nat.mod_lt _ (by rw [new_number]; omega)

theorem slotHash_new_lt (S B : Nat) (hf : Field → Nat) (sche : HashScheme)
    (H0 : Nat) (op : ExtendOption) (lf : Nat × Nat) (k : Field × Field)
    (hS : 1 ≤ S) :
    slotHash (HashTable.new S B hf sche H0 op lf) k < S :=
  Nat.mod_lt _ (by rw [new_size]; omega)

theorem bucketHash_lt (t : HashTable) (k : Field × Field)
    (hB : 1 ≤ t.BUCKET_NUMBER) : bucketHash t k < t.BUCKET_NUMBER :=
  Nat.mod_lt _ (by omega)

theorem slotHash_lt (t : HashTable) (k : Field × Field)
    (hS : 1 ≤ t.BUCKET_SIZE) : slotHash t k < t.BUCKET_SIZE :=
  Nat.mod_lt _ (by omega)

theorem linearProbeGo_succ (t : HashTable) (k : Field × Field)
    (b n i : Nat) :
    linearProbeGo t k b (n + 1) i =
      if (t.nodeAt b i).taken = false then i
      else if (t.nodeAt b i).key = k then i
      else linearProbeGo t k b n ((i + 1) % t.BUCKET_SIZE) := rfl

theorem robinHoodGo_succ (t : HashTable) (k : Field × Field)
    (b n i d : Nat) :
    robinHoodGo t k b (n + 1) i d =
      if (t.nodeAt b i).taken = false then (i, d)
      else if (t.nodeAt b i).key = k then (i, d)
      else if (t.nodeAt b i).dis < d then (i, d)
      else robinHoodGo t k b n ((i + 1) % t.BUCKET_SIZE) (d + 1) := rfl

theorem linearProbeGo_stop (t : HashTable) (k : Field × Field)
    (b fuel i : Nat) (hfuel : 1 ≤ fuel)
    (h : (t.nodeAt b i).taken = true → (t.nodeAt b i).key = k) :
    linearProbeGo t k b fuel i = i := by
  obtain ⟨m, rfl⟩ : ∃ m, fuel = m + 1 := ⟨fuel - 1, by omega⟩
  rw [linearProbeGo_succ]
  by_cases ht : (t.nodeAt b i).taken = false
  · rw [if_pos ht]
  · rw [if_neg ht, if_pos (h (by revert ht; cases (t.nodeAt b i).taken <;> simp))]

theorem get_bucket_index_new (S B : Nat) (hf : Field → Nat)
    (sche : HashScheme) (H0 : Nat) (op : ExtendOption) (lf : Nat × Nat)
    (k : Field × Field) (hS : 1 ≤ S) :
    get_bucket_index (HashTable.new S B hf sche H0 op lf) k =
      some (bucketHash (HashTable.new S B hf sche H0 op lf) k) := by
  unfold get_bucket_index
  rw [countAt_new, new_size]
  rw [if_neg (by omega)]

theorem getIndexes_new (S B : Nat) (hf : Field → Nat)
    (sche : HashScheme) (H0 : Nat) (op : ExtendOption) (lf : Nat × Nat)
    (k : Field × Field) (hS : 1 ≤ S) :
    get_indexes (HashTable.new S B hf sche H0 op lf) k =
      some (bucketHash (HashTable.new S B hf sche H0 op lf) k,
        slotHash (HashTable.new S B hf sche H0 op lf) k, 0) := by
  unfold get_indexes
  simp only [get_bucket_index_new S B hf sche H0 op lf k hS]
  rw [nodeAt_new]
  simp only [indexCheck, nodeAt_new]
  rw [if_neg (by simp [defaultNode])]
  rw [if_neg (by simp [defaultNode])]

theorem get_value_new (S B : Nat) (hf : Field → Nat)
    (H0 : Nat) (op : ExtendOption) (lf : Nat × Nat)
    (k : Field × Field) (hS : 1 ≤ S) :
    get_value (HashTable.new S B hf HashScheme.LinearProbe H0 op lf) k =
      some 0 := by
  unfold get_value
  simp only [getIndexes_new S B hf HashScheme.LinearProbe H0 op lf k hS]
  rw [if_neg (by simp [HashTable.new]), nodeAt_new]
  rfl

theorem nodeAt_single_self (S B : Nat) (hf : Field → Nat)
    (H0 : Nat) (op : ExtendOption) (lf : Nat × Nat)
    (k : Field × Field) (s : Nat) (hS : 1 ≤ S) (hB : 1 ≤ B) :
    (singleKeyTable (HashTable.new S B hf HashScheme.LinearProbe H0 op lf) k
        s).nodeAt
      (bucketHash (HashTable.new S B hf HashScheme.LinearProbe H0 op lf) k)
      (slotHash (HashTable.new S B hf HashScheme.LinearProbe H0 op lf) k) =
      { key := k, value := s, taken := true, dis := 0 } := by
  rw [nodeAt_singleKeyTable]
  · rw [if_pos ⟨rfl, rfl⟩]
  · rw [buckets_length_new]
    exact bucketHash_new_lt S B hf HashScheme.LinearProbe H0 op lf k hB
  · rw [row_length_new S B hf HashScheme.LinearProbe H0 op lf _
      (bucketHash_new_lt S B hf HashScheme.LinearProbe H0 op lf k hB)]
    exact slotHash_new_lt S B hf HashScheme.LinearProbe H0 op lf k hS

theorem countAt_single (S B : Nat) (hf : Field → Nat)
    (H0 : Nat) (op : ExtendOption) (lf : Nat × Nat)
    (k : Field × Field) (s : Nat) (hB : 1 ≤ B) (b : Nat) :
    (singleKeyTable (HashTable.new S B hf HashScheme.LinearProbe H0 op lf) k
        s).countAt b =
      if b = bucketHash (HashTable.new S B hf HashScheme.LinearProbe H0 op lf) k
      then 1 else 0 := by
  rw [countAt_singleKeyTable]
  · rw [countAt_new]
    split
    · rfl
    · rw [countAt_new]
  · rw [taken_length_new]
    exact bucketHash_new_lt S B hf HashScheme.LinearProbe H0 op lf k hB

theorem getIndexes_single (S B : Nat) (hf : Field → Nat)
    (H0 : Nat) (op : ExtendOption) (lf : Nat × Nat)
    (k : Field × Field) (s : Nat) (hS : 2 ≤ S) (hB : 1 ≤ B) :
    get_indexes
        (singleKeyTable (HashTable.new S B hf HashScheme.LinearProbe H0 op lf)
          k s) k =
      some (bucketHash (HashTable.new S B hf HashScheme.LinearProbe H0 op lf) k,
        slotHash (HashTable.new S B hf HashScheme.LinearProbe H0 op lf) k,
        0) := by
  have hnd := nodeAt_single_self S B hf H0 op lf k s (by omega) hB
  have hbx : get_bucket_index
      (singleKeyTable (HashTable.new S B hf HashScheme.LinearProbe H0 op lf) k s) k =
      some (bucketHash (HashTable.new S B hf HashScheme.LinearProbe H0 op lf) k) := by
    unfold get_bucket_index
    rw [show bucketHash (singleKeyTable (HashTable.new S B hf
        HashScheme.LinearProbe H0 op lf) k s) k =
      bucketHash (HashTable.new S B hf HashScheme.LinearProbe H0 op lf) k from rfl]
    rw [countAt_single S B hf H0 op lf k s hB, if_pos rfl]
    rw [show (singleKeyTable (HashTable.new S B hf HashScheme.LinearProbe H0
        op lf) k s).BUCKET_SIZE = S from rfl]
    rw [if_neg (by omega)]
  unfold get_indexes
  simp only [hbx]
  rw [show slotHash (singleKeyTable (HashTable.new S B hf
      HashScheme.LinearProbe H0 op lf) k s) k =
    slotHash (HashTable.new S B hf HashScheme.LinearProbe H0 op lf) k from rfl]
  rw [hnd]
  rw [if_pos rfl]
  rw [show (singleKeyTable (HashTable.new S B hf HashScheme.LinearProbe H0 op
      lf) k s).scheme = HashScheme.LinearProbe from rfl]
  have hgo := linearProbeGo_stop
    (singleKeyTable (HashTable.new S B hf HashScheme.LinearProbe H0 op lf) k s) k
    (bucketHash (HashTable.new S B hf HashScheme.LinearProbe H0 op lf) k)
    ((singleKeyTable (HashTable.new S B hf HashScheme.LinearProbe H0 op lf) k
      s).BUCKET_SIZE)
    (slotHash (HashTable.new S B hf HashScheme.LinearProbe H0 op lf) k)
    (by rw [show (singleKeyTable (HashTable.new S B hf HashScheme.LinearProbe
        H0 op lf) k s).BUCKET_SIZE = S from rfl]
        omega)
    (by rw [hnd]; intro _; rfl)
  unfold linear_probe
  simp only [hgo]
  unfold indexCheck
  rw [hnd]
  rw [if_neg (by simp)]

theorem get_value_single (S B : Nat) (hf : Field → Nat)
    (H0 : Nat) (op : ExtendOption) (lf : Nat × Nat)
    (k : Field × Field) (s : Nat) (hS : 2 ≤ S) (hB : 1 ≤ B) :
    get_value
        (singleKeyTable (HashTable.new S B hf HashScheme.LinearProbe H0 op lf)
          k s) k = some s := by
  unfold get_value
  simp only [getIndexes_single S B hf H0 op lf k s hS hB]
  rw [if_neg (by simp [singleKeyTable, placeNode, HashTable.new])]
  rw [nodeAt_single_self S B hf H0 op lf k s (by omega) hB]

theorem loadLimit_single (t0 : HashTable) (k : Field × Field) (s : Nat) :
    loadLimit (singleKeyTable t0 k s) = loadLimit t0 := rfl

/-- One further insert of the same key just bumps the stored count. -/
theorem bump_single (S B : Nat) (hf : Field → Nat)
    (H0 : Nat) (op : ExtendOption) (lf : Nat × Nat)
    (k : Field × Field) (s c : Nat) (hS : 1 ≤ S) (hB : 1 ≤ B) :
    bumpValue
        (singleKeyTable (HashTable.new S B hf HashScheme.LinearProbe H0 op lf)
          k s)
        (bucketHash (HashTable.new S B hf HashScheme.LinearProbe H0 op lf) k)
        (slotHash (HashTable.new S B hf HashScheme.LinearProbe H0 op lf) k) c =
      singleKeyTable (HashTable.new S B hf HashScheme.LinearProbe H0 op lf) k
        (s + c) := by
  unfold bumpValue
  rw [nodeAt_single_self S B hf H0 op lf k s hS hB]
  show setNode (incCount (setNode (HashTable.new S B hf HashScheme.LinearProbe
      H0 op lf) _ _ _) _) _ _ _ = _
  have hcomm : ∀ (t : HashTable) (b b' i : Nat) (nd : HashNode),
      setNode (incCount t b) b' i nd = incCount (setNode t b' i nd) b := by
    intro t b b' i nd
    rfl
  rw [hcomm]
  show incCount (setNode (setNode _ _ _ _) _ _ _) _ = _
  rw [setNode_setNode _ _ _ _ _ (by
    rw [buckets_length_new]
    exact bucketHash_new_lt S B hf HashScheme.LinearProbe H0 op lf k hB)]
  rfl

/-- First insert of `k` into the fresh table: the key is placed at its home
slot with its count. -/
theorem ins_fresh (S B : Nat) (hf : Field → Nat)
    (H0 : Nat) (op : ExtendOption) (lf : Nat × Nat)
    (k : Field × Field) (c : Nat) (f : Nat) (t' : HashTable)
    (hS : 2 ≤ S) (_hB : 1 ≤ B)
    (hL : 2 ≤ loadLimit (HashTable.new S B hf HashScheme.LinearProbe H0 op lf))
    (hk : k ≠ (Field.IntField 0, Field.IntField 0))
    (hx : exec f (HashTable.new S B hf HashScheme.LinearProbe H0 op lf)
      (Call.ins k c) = some t') :
    t' = singleKeyTable (HashTable.new S B hf HashScheme.LinearProbe H0 op lf)
      k c := by
  cases f with
  | zero => rw [exec_zero] at hx; cases hx
  | succ f =>
      rw [exec_ins] at hx
      cases hpre : exec f (HashTable.new S B hf HashScheme.LinearProbe H0 op lf)
          (Call.pre k c (List.range (HashTable.new S B hf
            HashScheme.LinearProbe H0 op lf).BUCKET_NUMBER)) with
      | none => rw [hpre] at hx; cases hx
      | some t1 =>
          have ht1 : t1 = HashTable.new S B hf HashScheme.LinearProbe H0 op lf :=
            pre_no_trigger k c _ f _ t1
              (fun i => by rw [countAt_new]; omega) hpre
          subst ht1
          rw [hpre] at hx
          simp only [getIndexes_new S B hf HashScheme.LinearProbe H0 op lf k
            (by omega)] at hx
          rw [if_neg (by rw [new_scheme]; intro hq; cases hq)] at hx
          rw [nodeAt_new] at hx
          rw [if_neg (fun hq => hk hq.symm)] at hx
          rw [if_pos (show defaultNode.taken = false from rfl)] at hx
          exact (Option.some.inj hx).symm

/-- Later insert of `k`: the stored count grows by `c`. -/
theorem ins_single (S B : Nat) (hf : Field → Nat)
    (H0 : Nat) (op : ExtendOption) (lf : Nat × Nat)
    (k : Field × Field) (s c : Nat) (f : Nat) (t' : HashTable)
    (hS : 2 ≤ S) (hB : 1 ≤ B)
    (hL : 2 ≤ loadLimit (HashTable.new S B hf HashScheme.LinearProbe H0 op lf))
    (hx : exec f
      (singleKeyTable (HashTable.new S B hf HashScheme.LinearProbe H0 op lf) k s)
      (Call.ins k c) = some t') :
    t' = singleKeyTable (HashTable.new S B hf HashScheme.LinearProbe H0 op lf)
      k (s + c) := by
  cases f with
  | zero => rw [exec_zero] at hx; cases hx
  | succ f =>
      rw [exec_ins] at hx
      cases hpre : exec f
          (singleKeyTable (HashTable.new S B hf HashScheme.LinearProbe H0 op
            lf) k s)
          (Call.pre k c (List.range (singleKeyTable (HashTable.new S B hf
            HashScheme.LinearProbe H0 op lf) k s).BUCKET_NUMBER)) with
      | none => rw [hpre] at hx; cases hx
      | some t1 =>
          have ht1 : t1 = singleKeyTable (HashTable.new S B hf
              HashScheme.LinearProbe H0 op lf) k s :=
            pre_no_trigger k c _ f _ t1
              (fun i => by
                rw [countAt_single S B hf H0 op lf k s hB,
                  loadLimit_single]
                split <;> omega) hpre
          subst ht1
          rw [hpre] at hx
          simp only [getIndexes_single S B hf H0 op lf k s hS hB] at hx
          rw [if_neg (by intro hq; cases hq)] at hx
          rw [nodeAt_single_self S B hf H0 op lf k s (by omega) hB] at hx
          rw [if_pos rfl] at hx
          rw [bump_single S B hf H0 op lf k s c (by omega) hB] at hx
          exact (Option.some.inj hx).symm

/-- C1, amended.  Under the LinearProbe scheme, with a key different from
the default key, a bucket capacity of at least 2 and a load limit
`⌊S·lf⌋ ≥ 2` (so that no insert of this single key can trigger a rehash),
N inserts of key `k` with counts `c₁, …, c_N` that run to completion are
followed by `lookup(k) = Some (Σ cᵢ)`.  (As stated — over all schemes and
including inserts that rehash — the claim is false, see the
counterexample.) -/
theorem C1_theorem (S B : Nat) (hf : Field → Nat)
    (H0 : Nat) (op : ExtendOption) (lf : Nat × Nat)
    (k : Field × Field) (cs : List Nat) (fuel : Nat) (t' : HashTable)
    (hS : 2 ≤ S) (hB : 1 ≤ B)
    (hL : 2 ≤ loadLimit (HashTable.new S B hf HashScheme.LinearProbe H0 op lf))
    (hk : k ≠ (Field.IntField 0, Field.IntField 0))
    (hrun : insertSeq fuel
      (HashTable.new S B hf HashScheme.LinearProbe H0 op lf)
      (cs.map (fun c => (k, c))) = some t') :
    get_value t' k = some cs.sum := by
  have main : ∀ (cs' : List Nat) (s : Nat) (t'' : HashTable),
      insertSeq fuel
        (singleKeyTable (HashTable.new S B hf HashScheme.LinearProbe H0 op lf)
          k s)
        (cs'.map (fun c => (k, c))) = some t'' →
      get_value t'' k = some (s + cs'.sum) := by
    intro cs'
    induction cs' with
    | nil =>
        intro s t'' hx
        rw [show (([] : List Nat).map (fun c => (k, c))) = [] from rfl,
          insertSeq] at hx
        rw [← Option.some.inj hx]
        rw [get_value_single S B hf H0 op lf k s hS hB]
        rw [List.sum_nil, Nat.add_zero]
    | cons c rest ih =>
        intro s t'' hx
        rw [List.map_cons, insertSeq] at hx
        cases hstep : exec fuel
            (singleKeyTable (HashTable.new S B hf HashScheme.LinearProbe H0 op
              lf) k s) (Call.ins k c) with
        | none => rw [hstep] at hx; cases hx
        | some t1 =>
            rw [hstep] at hx
            rw [ins_single S B hf H0 op lf k s c fuel t1 hS hB hL hstep] at hx
            have := ih (s + c) t'' hx
            rw [this, List.sum_cons]
            congr 1
            omega
  cases cs with
  | nil =>
      rw [show (([] : List Nat).map (fun c => (k, c))) = [] from rfl,
        insertSeq] at hrun
      rw [← Option.some.inj hrun]
      rw [get_value_new S B hf H0 op lf k (by omega)]
      rw [List.sum_nil]
  | cons c rest =>
      rw [List.map_cons, insertSeq] at hrun
      cases hstep : exec fuel
          (HashTable.new S B hf HashScheme.LinearProbe H0 op lf)
          (Call.ins k c) with
      | none => rw [hstep] at hrun; cases hrun
      | some t1 =>
          rw [hstep] at hrun
          rw [ins_fresh S B hf H0 op lf k c fuel t1 hS hB hL hk hstep] at hrun
          have := main rest c t' hrun
          rw [this, List.sum_cons]

/-- C1 witness: the amended theorem applied at S = 4, B = 1, load factor
0.9, two inserts of `keyA` with counts 1 and 2; the lookup yields 3. -/
theorem C1_witness :
    (insertSeq 30 (HashTable.new 4 1 zeroHash HashScheme.LinearProbe 4
        ExtendOption.ExtendBucketSize (9, 10))
      (([1, 2] : List Nat).map (fun c => (keyA, c)))).map
        (fun t => get_value t keyA) = some (some 3) := by
  obtain ⟨t', ht⟩ : ∃ t', insertSeq 30 (HashTable.new 4 1 zeroHash
      HashScheme.LinearProbe 4 ExtendOption.ExtendBucketSize (9, 10))
      (([1, 2] : List Nat).map (fun c => (keyA, c))) = some t' := ⟨_, rfl⟩
  rw [ht, Option.map_some']
  rw [C1_theorem 4 1 zeroHash 4 ExtendOption.ExtendBucketSize (9, 10) keyA
    [1, 2] 30 t' (by omega) (by omega) (by decide) (by decide) ht]
  rfl

/-! ## C3: equi-join (amended: emits exactly the lookups equal to Some 1) -/

/-- C3, amended.  `join` builds the table by inserting every tuple of `L`
with count 1 and then emits, in R's order (the output is a sublist of R),
exactly those `r ∈ R` whose lookup in the build table returns exactly
`Some 1` — not every `r` with `Some c`, `c ≥ 1`, as the contract claims
(see the counterexample: a tuple occurring twice in `L` has count 2 and is
dropped). -/
theorem C3_theorem (fuel : Nat) (t0 : HashTable)
    (L R out : List (Field × Field))
    (h : joinF fuel t0 L R = some out) :
    ∃ tbl, buildTable fuel t0 L = some tbl ∧
      out = R.filter (fun r => get_value tbl r == some 1) ∧
      List.Sublist out R ∧
      ∀ r, r ∈ out ↔ r ∈ R ∧ get_value tbl r = some 1 := by
  unfold joinF at h
  cases hb : buildTable fuel t0 L with
  | none => rw [hb] at h; cases h
  | some tbl =>
      rw [hb] at h
      have hout : out = R.filter (fun r => get_value tbl r == some 1) :=
        (Option.some.inj h).symm
      refine ⟨tbl, rfl, hout, ?_, ?_⟩
      · rw [hout]; exact List.filter_sublist R
      · intro r
        rw [hout]
        simp [List.mem_filter]

/-- C3 witness: the amended theorem applied at `L = [keyA]`,
`R = [keyA, keyB]`; the join emits exactly `[keyA]`. -/
theorem C3_witness :
    ∃ tbl, buildTable 50 tableC3 [keyA] = some tbl ∧
      [keyA] = ([keyA, keyB].filter (fun r => get_value tbl r == some 1)) ∧
      List.Sublist [keyA] [keyA, keyB] ∧
      ∀ r, r ∈ [keyA] ↔ r ∈ [keyA, keyB] ∧ get_value tbl r = some 1 :=
  C3_theorem 50 tableC3 [keyA] [keyA, keyB] [keyA] rfl

/-! ## C9: geometry and behavior of `extend` -/

/-- C9.  `extend` (on a table with at least one bucket; with zero buckets
the `assert!` fails) allocates a fresh table with the same configuration —
hash function, scheme, H, growth policy, load factor — and doubled
dimensions according to the growth policy (`ExtendBucketSize`: S' = 2S,
B' = B; `ExtendBucketNumber`: B' = 2B, S' = S), entirely empty, and then
re-inserts exactly the occupied slots of the old table, in bucket/slot
order, via `insert`. -/
theorem C9_theorem (fuel : Nat) (t : HashTable)
    (hne : t.buckets.length ≠ 0) :
    exec (fuel + 1) t Call.ext =
      exec fuel (freshDoubled t) (Call.reins (takenNodes t)) ∧
    (freshDoubled t).hashF = t.hashF ∧
    (freshDoubled t).scheme = t.scheme ∧
    (freshDoubled t).H = t.H ∧
    (freshDoubled t).extend_op = t.extend_op ∧
    (freshDoubled t).load_factor = t.load_factor ∧
    (t.extend_op = ExtendOption.ExtendBucketSize →
      (freshDoubled t).BUCKET_SIZE = 2 * t.BUCKET_SIZE ∧
      (freshDoubled t).BUCKET_NUMBER = t.BUCKET_NUMBER) ∧
    (t.extend_op = ExtendOption.ExtendBucketNumber →
      (freshDoubled t).BUCKET_NUMBER = 2 * t.BUCKET_NUMBER ∧
      (freshDoubled t).BUCKET_SIZE = t.BUCKET_SIZE) ∧
    takenNodes t = t.buckets.flatten.filter (fun nd => nd.taken) ∧
    (∀ b, (freshDoubled t).countAt b = 0) ∧
    (∀ b i, (freshDoubled t).nodeAt b i = defaultNode) := by
  have hfd : freshDoubled t =
      match t.extend_op with
      | ExtendOption.ExtendBucketSize =>
          HashTable.new (t.BUCKET_SIZE * 2) t.BUCKET_NUMBER t.hashF t.scheme
            t.H t.extend_op t.load_factor
      | ExtendOption.ExtendBucketNumber =>
          HashTable.new t.BUCKET_SIZE (t.BUCKET_NUMBER * 2) t.hashF t.scheme
            t.H t.extend_op t.load_factor := by
    cases ht : t.extend_op <;> simp [freshDoubled, ht, HashTable.new]
  refine ⟨by rw [exec_ext, if_neg hne], ?_, ?_, ?_, ?_, ?_, ?_, ?_, rfl,
    ?_, ?_⟩
  · cases ht : t.extend_op <;> simp [freshDoubled, ht]
  · cases ht : t.extend_op <;> simp [freshDoubled, ht]
  · cases ht : t.extend_op <;> simp [freshDoubled, ht]
  · cases ht : t.extend_op <;> simp [freshDoubled, ht]
  · cases ht : t.extend_op <;> simp [freshDoubled, ht]
  · intro ht; rw [hfd, ht]
    constructor
    · rw [new_size]; omega
    · rw [new_number]
  · intro ht; rw [hfd, ht]
    constructor
    · rw [new_number]; omega
    · rw [new_size]
  · intro b
    rw [hfd]
    cases ht : t.extend_op <;> simp only [ht] <;> rw [countAt_new]
  · intro b i
    rw [hfd]
    cases ht : t.extend_op <;> simp only [ht] <;> rw [nodeAt_new]

/-- C9 witness: the theorem applied to a concrete one-bucket table. -/
theorem C9_witness :
    exec 6 tableC3 Call.ext =
      exec 5 (freshDoubled tableC3) (Call.reins (takenNodes tableC3)) :=
  (C9_theorem 5 tableC3 (by decide)).1

/-! ## C2: no phantom keys (amended: LinearProbe, None or Some 0) -/

theorem indexCheck_some (t : HashTable) (k : Field × Field)
    (b i d : Nat) (b' i' : Nat) (d' : Nat)
    (h : indexCheck t k b i d = some (b', i', d')) :
    b' = b ∧ i' = i ∧
      ((t.nodeAt b i).taken = false ∨ (t.nodeAt b i).key = k) := by
  unfold indexCheck at h
  by_cases hc : (t.nodeAt b i).taken = true ∧ (t.nodeAt b i).key ≠ k
  · rw [if_pos hc] at h; cases h
  · rw [if_neg hc] at h
    have h12 := Option.some.inj h
    rw [Prod.mk.injEq, Prod.mk.injEq] at h12
    refine ⟨h12.1.symm, h12.2.1.symm, ?_⟩
    by_cases htk : (t.nodeAt b i).taken = true
    · right
      by_contra hne
      exact hc ⟨htk, hne⟩
    · left
      cases hr : (t.nodeAt b i).taken
      · rfl
      · exact absurd hr htk

theorem get_indexes_shape (t : HashTable) (k : Field × Field) (b0 : Nat)
    (hgb : get_bucket_index t k = some b0) :
    get_indexes t k =
      if (t.nodeAt b0 (slotHash t k)).taken = true then
        match t.scheme with
        | HashScheme.LinearProbe =>
            match linear_probe t k b0 (slotHash t k) with
            | some i => indexCheck t k b0 i 0
            | none => none
        | HashScheme.Hopscotch => some (b0, slotHash t k, 0)
        | HashScheme.RobinHood =>
            match robin_hood t k b0 (slotHash t k) with
            | some r => some (b0, r.1, r.2)
            | none => none
      else indexCheck t k b0 (slotHash t k) 0 := by
  unfold get_indexes
  rw [hgb]

theorem getIndexes_lp (t : HashTable) (k : Field × Field) (b i d : Nat)
    (hs : t.scheme = HashScheme.LinearProbe)
    (h : get_indexes t k = some (b, i, d)) :
    (t.nodeAt b i).taken = false ∨ (t.nodeAt b i).key = k := by
  cases hgb : get_bucket_index t k with
  | none =>
      unfold get_indexes at h
      rw [hgb] at h
      cases h
  | some b0 =>
      rw [get_indexes_shape t k b0 hgb] at h
      by_cases htaken : (t.nodeAt b0 (slotHash t k)).taken = true
      · rw [if_pos htaken, hs] at h
        have h2 : indexCheck t k b0
            (linearProbeGo t k b0 t.BUCKET_SIZE (slotHash t k)) 0 =
            some (b, i, d) := h
        obtain ⟨hb', hi', hdisj⟩ := indexCheck_some t k b0
          (linearProbeGo t k b0 t.BUCKET_SIZE (slotHash t k)) 0 b i d h2
        rw [hb', hi']
        exact hdisj
      · rw [if_neg htaken] at h
        obtain ⟨hb', hi', hdisj⟩ :=
          indexCheck_some t k b0 (slotHash t k) 0 b i d h
        rw [hb', hi']
        exact hdisj

/-- Under the C2 invariant the lookup of `k` is the empty option or the
zero count of an untaken slot. -/
theorem C2Inv_lookup (k : Field × Field) (t : HashTable)
    (hinv : C2Inv k t) :
    get_value t k = none ∨ get_value t k = some 0 := by
  unfold get_value
  cases hgi : get_indexes t k with
  | none => left; rfl
  | some bid =>
      obtain ⟨b, i, d⟩ := bid
      show ((if t.scheme = HashScheme.Hopscotch then
          hopLookupGo t k b i (List.range t.H).reverse
        else some (t.nodeAt b i).value) = none) ∨
        ((if t.scheme = HashScheme.Hopscotch then
          hopLookupGo t k b i (List.range t.H).reverse
        else some (t.nodeAt b i).value) = some 0)
      rw [if_neg (by rw [hinv.1]; intro hq; cases hq)]
      right
      cases getIndexes_lp t k b i d hinv.1 hgi with
      | inl h => rw [hinv.2.1 b i h]; rfl
      | inr h =>
          cases htk : (t.nodeAt b i).taken with
          | false => rw [hinv.2.1 b i htk]; rfl
          | true => exact absurd h (hinv.2.2 b i htk).1

theorem C2Inv_bump (k : Field × Field) (t : HashTable) (b i v : Nat)
    (hinv : C2Inv k t) (htaken : (t.nodeAt b i).taken = true) :
    C2Inv k (bumpValue t b i v) := by
  refine ⟨hinv.1, ?_, ?_⟩
  · intro b' i'
    unfold bumpValue
    rw [nodeAt_setNode]
    split
    · intro hq
      have hq' : (t.nodeAt b i).taken = false := hq
      rw [hq'] at htaken
      cases htaken
    · exact hinv.2.1 b' i'
  · intro b' i'
    unfold bumpValue
    rw [nodeAt_setNode]
    split
    · intro _
      exact hinv.2.2 b i htaken
    · exact hinv.2.2 b' i'

theorem C2Inv_write (k : Field × Field) (t : HashTable) (b i : Nat)
    (k' : Field × Field) (v d : Nat)
    (hinv : C2Inv k t) (hk1 : k' ≠ k)
    (hk2 : k' ≠ (Field.IntField 0, Field.IntField 0)) :
    C2Inv k (setNode t b i
      { key := k', value := v, taken := true, dis := d }) := by
  refine ⟨hinv.1, ?_, ?_⟩
  · intro b' i'
    rw [nodeAt_setNode]
    split
    · intro hq; cases hq
    · exact hinv.2.1 b' i'
  · intro b' i'
    rw [nodeAt_setNode]
    split
    · intro _; exact ⟨hk1, hk2⟩
    · exact hinv.2.2 b' i'

theorem C2Inv_place (k : Field × Field) (t : HashTable) (b i : Nat)
    (k' : Field × Field) (v d : Nat)
    (hinv : C2Inv k t) (hk1 : k' ≠ k)
    (hk2 : k' ≠ (Field.IntField 0, Field.IntField 0)) :
    C2Inv k (placeNode t b i k' v d) := by
  have h1 := C2Inv_write k t b i k' v d hinv hk1 hk2
  exact ⟨h1.1, h1.2.1, h1.2.2⟩

theorem scheme_freshDoubled (t : HashTable) :
    (freshDoubled t).scheme = t.scheme := by
  cases ht : t.extend_op <;> simp [freshDoubled, ht]

theorem nodeAt_freshDoubled (t : HashTable) (b i : Nat) :
    (freshDoubled t).nodeAt b i = defaultNode := by
  cases ht : t.extend_op <;>
    simp only [freshDoubled, ht] <;>
    exact nodeAt_new _ _ _ _ _ _ _ _ _

theorem C2Inv_freshDoubled (k : Field × Field) (t : HashTable)
    (hs : t.scheme = HashScheme.LinearProbe) :
    C2Inv k (freshDoubled t) := by
  refine ⟨by rw [scheme_freshDoubled, hs], ?_, ?_⟩
  · intro b i _
    rw [nodeAt_freshDoubled]
  · intro b i h
    rw [nodeAt_freshDoubled] at h
    cases h

theorem mem_takenNodes (t : HashTable) (nd : HashNode)
    (h : nd ∈ takenNodes t) :
    nd.taken = true ∧ ∃ b i, t.nodeAt b i = nd := by
  unfold takenNodes at h
  rw [List.mem_filter] at h
  refine ⟨h.2, ?_⟩
  obtain ⟨row, hrow, hnd⟩ := List.mem_flatten.mp h.1
  obtain ⟨b, hb, hrow'⟩ := List.mem_iff_getElem.mp hrow
  obtain ⟨i, hi, hnd'⟩ := List.mem_iff_getElem.mp hnd
  refine ⟨b, i, ?_⟩
  unfold HashTable.nodeAt
  rw [List.getD_eq_getElem t.buckets [] hb, hrow',
    List.getD_eq_getElem row defaultNode hi, hnd']

/-- Preservation of the C2 invariant by every call of the insert cluster. -/
theorem C2_preserve (k : Field × Field) :
    ∀ (fuel : Nat) (t : HashTable) (c : Call) (t' : HashTable),
      C2Safe k c → C2Inv k t → exec fuel t c = some t' → C2Inv k t' := by
  intro fuel
  induction fuel with
  | zero =>
      intro t c t' _ _ hx
      rw [exec_zero] at hx
      cases hx
  | succ f ih =>
      intro t c t' hsafe hinv hx
      cases c with
      | ins k' v =>
          rw [exec_ins] at hx
          split at hx
          · cases hx
          · rename_i t1 hpre
            have hinv1 : C2Inv k t1 :=
              ih t (Call.pre k' v (List.range t.BUCKET_NUMBER)) t1 hsafe
                hinv hpre
            split at hx
            · rename_i b i d hgi
              split at hx
              · rename_i hsch
                rw [hinv1.1] at hsch
                cases hsch
              · rename_i hsch
                split at hx
                · rename_i hkey
                  have htaken : (t1.nodeAt b i).taken = true := by
                    cases hnt : (t1.nodeAt b i).taken with
                    | false =>
                        exfalso
                        apply hsafe.2
                        rw [← hkey, hinv1.2.1 b i hnt]
                        rfl
                    | true => rfl
                  rw [← Option.some.inj hx]
                  exact C2Inv_bump k t1 b i v hinv1 htaken
                · rename_i hkey
                  split at hx
                  · rename_i htk
                    rw [← Option.some.inj hx]
                    exact C2Inv_place k t1 b i k' v d hinv1 hsafe.1 hsafe.2
                  · rename_i htk
                    have htaken : (t1.nodeAt b i).taken = true := by
                      cases hnt : (t1.nodeAt b i).taken with
                      | false => exact absurd hnt htk
                      | true => rfl
                    have hori := hinv1.2.2 b i htaken
                    exact ih _
                      (Call.ins (t1.nodeAt b i).key (t1.nodeAt b i).value) t'
                      (show C2Safe k (Call.ins (t1.nodeAt b i).key
                        (t1.nodeAt b i).value) from hori)
                      (C2Inv_write k t1 b i k' v d hinv1 hsafe.1 hsafe.2) hx
            · rename_i hgi
              split at hx
              · cases hx
              · rename_i t2 hext
                have hinv2 : C2Inv k t2 :=
                  ih t1 Call.ext t2 trivial hinv1 hext
                exact ih t2 _ t' hsafe hinv2 hx
      | pre k' v is =>
          cases is with
          | nil =>
              rw [exec_pre_nil] at hx
              rw [← Option.some.inj hx]
              exact hinv
          | cons i rest =>
              rw [exec_pre_cons] at hx
              split at hx
              · split at hx
                · cases hx
                · rename_i t1 hext
                  split at hx
                  · cases hx
                  · rename_i t2 hins
                    have h1 : C2Inv k t1 :=
                      ih t Call.ext t1 trivial hinv hext
                    have h2 : C2Inv k t2 :=
                      ih t1 (Call.ins k' v) t2
                        (show C2Safe k (Call.ins k' v) from hsafe) h1 hins
                    exact ih t2 (Call.pre k' v rest) t'
                      (show C2Safe k (Call.pre k' v rest) from hsafe) h2 hx
              · exact ih t (Call.pre k' v rest) t'
                  (show C2Safe k (Call.pre k' v rest) from hsafe) hinv hx

      | ext =>
          rw [exec_ext] at hx
          split at hx
          · cases hx
          · rename_i hb
            have hsafe2 : C2Safe k (Call.reins (takenNodes t)) := by
              intro nd hnd
              obtain ⟨ht, b, i, hbi⟩ := mem_takenNodes t nd hnd
              have := hinv.2.2 b i (by rw [hbi]; exact ht)
              rw [hbi] at this
              exact this
            exact ih _ _ t' hsafe2 (C2Inv_freshDoubled k t hinv.1) hx
      | reins nds =>
          cases nds with
          | nil =>
              rw [exec_reins_nil] at hx
              rw [← Option.some.inj hx]
              exact hinv
          | cons nd rest =>
              rw [exec_reins_cons] at hx
              split at hx
              · cases hx
              · rename_i t1 hins
                have h1 : C2Inv k t1 :=
                  ih t (Call.ins nd.key nd.value) t1
                    (show C2Safe k (Call.ins nd.key nd.value) from
                      hsafe nd (List.mem_cons_self nd rest)) hinv hins
                exact ih t1 (Call.reins rest) t'
                  (show C2Safe k (Call.reins rest) from
                    fun x hxm => hsafe x (List.mem_cons_of_mem nd hxm)) h1
                  hx
      | hop k' v b index => exact hsafe.elim
      | swapl k' v b index empty start => exact hsafe.elim

/-- C2, amended.  Under the LinearProbe scheme, after any completed
sequence of inserts none of which uses `k` (or the default key, whose
insertion is itself broken: it is matched by untaken slots), `lookup(k)`
returns either the empty option or `Some 0` — never a positive count.  (As
stated — "returns empty" — the claim is false: the counterexample shows
`Some 0` on a fresh table.) -/
theorem C2_theorem (S B : Nat) (hf : Field → Nat) (H0 : Nat)
    (op : ExtendOption) (lf : Nat × Nat) (k : Field × Field)
    (ps : List ((Field × Field) × Nat)) (fuel : Nat) (t' : HashTable)
    (hkeys : ∀ p ∈ ps, p.1 ≠ k ∧
      p.1 ≠ (Field.IntField 0, Field.IntField 0))
    (hrun : insertSeq fuel
      (HashTable.new S B hf HashScheme.LinearProbe H0 op lf) ps = some t') :
    get_value t' k = none ∨ get_value t' k = some 0 := by
  have hinv0 : C2Inv k (HashTable.new S B hf HashScheme.LinearProbe H0 op
      lf) := by
    refine ⟨rfl, ?_, ?_⟩
    · intro b i _
      rw [nodeAt_new]
    · intro b i h
      rw [nodeAt_new] at h
      cases h
  have main : ∀ (ps' : List ((Field × Field) × Nat)) (t : HashTable),
      (∀ p ∈ ps', p.1 ≠ k ∧
        p.1 ≠ (Field.IntField 0, Field.IntField 0)) →
      C2Inv k t → insertSeq fuel t ps' = some t' → C2Inv k t' := by
    intro ps'
    induction ps' with
    | nil =>
        intro t _ hinv hx
        rw [insertSeq] at hx
        rw [← Option.some.inj hx]
        exact hinv
    | cons p rest ihp =>
        intro t hkeys' hinv hx
        obtain ⟨kp, vp⟩ := p
        rw [insertSeq] at hx
        cases hins : exec fuel t (Call.ins kp vp) with
        | none => rw [hins] at hx; cases hx
        | some t1 =>
            rw [hins] at hx
            have h1 : C2Inv k t1 :=
              C2_preserve k fuel t (Call.ins kp vp) t1
                (show C2Safe k (Call.ins kp vp) from
                  hkeys' (kp, vp) (List.mem_cons_self _ _)) hinv hins
            exact ihp t1
              (fun p hp => hkeys' p (List.mem_cons_of_mem _ hp)) h1 hx
  exact C2Inv_lookup k t' (main ps _ hkeys hinv0 hrun)

/-- C2 witness: the amended theorem applied to a table where `keyB` was
inserted and `keyA` is looked up. -/
theorem C2_witness :
    get_value (match insertSeq 30 tableC2 [(keyB, 5)] with
      | some t => t
      | none => tableC2) keyA = none ∨
    get_value (match insertSeq 30 tableC2 [(keyB, 5)] with
      | some t => t
      | none => tableC2) keyA = some 0 := by
  obtain ⟨t', ht⟩ : ∃ t', insertSeq 30 tableC2 [(keyB, 5)] = some t' :=
    ⟨_, rfl⟩
  rw [ht]
  exact C2_theorem 2 1 zeroHash 4 ExtendOption.ExtendBucketSize (9, 10)
    keyA [(keyB, 5)] 30 t' (by intro p hp; simp at hp; rw [hp]; decide) ht

/-! ## Bit-arithmetic helpers for the hop bitmap updates
(`hop -= 1 << n; hop += 1 << p` in `hopscotch_insert`). -/

/-- A number whose bits at positions `≥ H` are all clear is `< 2 ^ H`. -/
theorem testBit_high_false_lt {w H : Nat}
    (h : ∀ q, H ≤ q → w.testBit q = false) : w < 2 ^ H := by
  have he : w = w % 2 ^ H := by
    apply Nat.eq_of_testBit_eq
    intro q
    rw [Nat.testBit_mod_two_pow]
    by_cases hq : q < H
    · simp [hq]
    · simp [hq, h q (Nat.le_of_not_lt hq)]
  rw [he]
  exact Nat.mod_lt _ (Nat.two_pow_pos H)

/-- Adding a multiple of `2 ^ p` does not change bits below `p`. -/
theorem testBit_add_mul_high (y m q p : Nat) (hq : q < p) :
    (y + 2 ^ p * m).testBit q = y.testBit q := by
  have h1 : 2 ^ p * m = 2 ^ q * (2 * (2 ^ (p - q - 1) * m)) := by
    rw [← Nat.mul_assoc, ← Nat.mul_assoc]
    congr 1
    rw [Nat.mul_assoc, ← Nat.pow_succ', ← Nat.pow_add]
    congr 1
    omega
  rw [Nat.testBit_to_div_mod, Nat.testBit_to_div_mod, h1,
    Nat.add_mul_div_left _ _ (Nat.two_pow_pos q), decide_eq_decide]
  omega

/-- Adding `2 ^ p` to a number whose bit `p` is clear sets exactly that
bit. -/
theorem testBit_add_two_pow (y p : Nat) (h : y.testBit p = false)
    (q : Nat) :
    (y + 2 ^ p).testBit q = (if q = p then true else y.testBit q) := by
  rcases Nat.lt_trichotomy q p with hq | hq | hq
  · rw [if_neg (by omega)]
    have h2 := testBit_add_mul_high y 1 q p hq
    rw [Nat.mul_one] at h2
    exact h2
  · subst hq
    rw [if_pos rfl, Nat.testBit_to_div_mod] at *
    rw [Nat.add_div_right _ (Nat.two_pow_pos q)]
    simp only [decide_eq_false_iff_not] at h
    simp only [decide_eq_true_eq]
    omega
  · rw [if_neg (by omega)]
    have hb : y / 2 ^ p % 2 = 0 := by
      rw [Nat.testBit_to_div_mod] at h
      simp only [decide_eq_false_iff_not] at h
      omega
    have hlo : y % 2 ^ (p + 1) = y % 2 ^ p := by
      have hm : y % (2 ^ p * 2) = y % 2 ^ p + 2 ^ p * (y / 2 ^ p % 2) :=
        Nat.mod_mul
      rw [hb, Nat.mul_zero, Nat.add_zero] at hm
      rw [Nat.pow_succ]
      exact hm
    have hdq : ∀ x : Nat, x / 2 ^ q = x / 2 ^ (p + 1) / 2 ^ (q - p - 1) := by
      intro x
      rw [Nat.div_div_eq_div_mul, ← Nat.pow_add]
      congr 2
      omega
    have hfloor : (y + 2 ^ p) / 2 ^ (p + 1) = y / 2 ^ (p + 1) := by
      have hml := Nat.mod_lt y (Nat.two_pow_pos p)
      have hpow : (2 : Nat) ^ (p + 1) = 2 ^ p + 2 ^ p := by
        rw [Nat.pow_succ]
        omega
      have h0 : (y % 2 ^ (p + 1) + 2 ^ p) / 2 ^ (p + 1) = 0 :=
        Nat.div_eq_of_lt (by rw [hlo, hpow]; omega)
      conv_lhs => rw [← Nat.div_add_mod y (2 ^ (p + 1))]
      rw [Nat.add_assoc, Nat.mul_add_div (Nat.two_pow_pos (p + 1)), h0,
        Nat.add_zero]
    rw [Nat.testBit_to_div_mod, Nat.testBit_to_div_mod, hdq, hdq, hfloor]

/-- Subtracting `2 ^ p` from a number whose bit `p` is set clears exactly
that bit. -/
theorem testBit_sub_two_pow (y p : Nat) (h : y.testBit p = true)
    (q : Nat) :
    (y - 2 ^ p).testBit q = (if q = p then false else y.testBit q) := by
  have hge : 2 ^ p ≤ y := Nat.testBit_implies_ge h
  have hz : (y - 2 ^ p).testBit p = false := by
    rw [Nat.testBit_to_div_mod] at h
    simp only [decide_eq_true_eq] at h
    have hd1 : 1 ≤ y / 2 ^ p := by
      rcases Nat.eq_zero_or_pos (y / 2 ^ p) with h0 | h0
      · rw [h0] at h
        exact absurd h (by decide)
      · exact h0
    obtain ⟨d, hd⟩ : ∃ d, y / 2 ^ p = d + 1 := ⟨y / 2 ^ p - 1, by omega⟩
    have hy := Nat.div_add_mod y (2 ^ p)
    rw [hd] at hy h
    rw [Nat.mul_add, Nat.mul_one] at hy
    have hsub : y - 2 ^ p = 2 ^ p * d + y % 2 ^ p := by omega
    rw [Nat.testBit_to_div_mod, hsub,
      Nat.mul_add_div (Nat.two_pow_pos p),
      Nat.div_eq_of_lt (Nat.mod_lt _ (Nat.two_pow_pos p))]
    simp only [decide_eq_false_iff_not]
    omega
  have hback : y - 2 ^ p + 2 ^ p = y := Nat.sub_add_cancel hge
  have ha := testBit_add_two_pow (y - 2 ^ p) p hz q
  rw [hback] at ha
  by_cases hq : q = p
  · subst hq
    rw [if_pos rfl]
    exact hz
  · rw [if_neg hq]
    rw [if_neg hq] at ha
    exact ha.symm

/-- The combined hop-word surgery of `swapMove`: with bit `n` set and bit
`p` clear, `x - 2^n + 2^p` clears `n`, sets `p`, leaves every other bit,
and stays below `2 ^ H`. -/
theorem clear_set_bit (x n p H : Nat) (hx : x < 2 ^ H)
    (hn : x.testBit n = true) (hp : x.testBit p = false)
    (hpH : p < H) :
    x - 2 ^ n + 2 ^ p < 2 ^ H ∧
    ∀ q, (x - 2 ^ n + 2 ^ p).testBit q =
      (if q = n then false else if q = p then true else x.testBit q) := by
  have hnH : n < H := by
    have h1 := Nat.testBit_implies_ge hn
    by_contra hcon
    have h2 : 2 ^ H ≤ 2 ^ n := Nat.pow_le_pow_right (by omega) (by omega)
    omega
  have hnp : n ≠ p := by
    rintro rfl
    rw [hn] at hp
    cases hp
  have hz := testBit_sub_two_pow x n hn
  have hzp : (x - 2 ^ n).testBit p = false := by
    rw [hz p, if_neg (fun hh => hnp hh.symm)]
    exact hp
  have ha := testBit_add_two_pow (x - 2 ^ n) p hzp
  have hbits : ∀ q, (x - 2 ^ n + 2 ^ p).testBit q =
      (if q = n then false else if q = p then true else x.testBit q) := by
    intro q
    rw [ha q, hz q]
    have hpn : p ≠ n := fun hh => hnp hh.symm
    by_cases h1 : q = p
    · subst h1
      simp [hpn]
    · by_cases h2 : q = n
      · subst h2
        simp [hnp]
      · simp [h1, h2]
  refine ⟨?_, hbits⟩
  apply testBit_high_false_lt
  intro q hq
  rw [hbits q, if_neg (by omega), if_neg (by omega)]
  exact Nat.testBit_eq_false_of_lt
    (lt_of_lt_of_le hx (Nat.pow_le_pow_right (by omega) hq))

/-! ## Counting and scan lemmas for the C5/C8 invariant -/

theorem countTaken_nil : countTaken [] = 0 := rfl

theorem countTaken_cons (nd : HashNode) (l : List HashNode) :
    countTaken (nd :: l) =
      (if nd.taken = true then 1 else 0) + countTaken l := by
  unfold countTaken
  rw [List.filter_cons]
  by_cases h : nd.taken = true
  · rw [if_pos (by exact h), if_pos h, List.length_cons]
    omega
  · rw [if_neg (by exact h), if_neg h, Nat.zero_add]

theorem countTaken_replicate (n : Nat) :
    countTaken (List.replicate n defaultNode) = 0 := by
  induction n with
  | zero => rfl
  | succ m ih =>
      rw [List.replicate_succ, countTaken_cons, ih]
      rfl

theorem countTaken_set (l : List HashNode) (i : Nat) (nd : HashNode)
    (h : i < l.length) :
    countTaken (l.set i nd) +
      (if (l.getD i defaultNode).taken = true then 1 else 0) =
    countTaken l + (if nd.taken = true then 1 else 0) := by
  induction l generalizing i with
  | nil => cases h
  | cons a tl ih =>
      cases i with
      | zero =>
          rw [List.set_cons_zero, countTaken_cons, countTaken_cons]
          have hd : (a :: tl).getD 0 defaultNode = a := rfl
          rw [hd]
          omega
      | succ j =>
          have hj : j < tl.length := by
            rw [List.length_cons] at h
            omega
          rw [List.set_cons_succ, countTaken_cons, countTaken_cons]
          have hd : (a :: tl).getD (j + 1) defaultNode =
              tl.getD j defaultNode := rfl
          rw [hd]
          have h2 := ih j hj
          omega

theorem hopAt_oob (t : HashTable) (b i : Nat) (hwf : WF t)
    (h : t.BUCKET_NUMBER ≤ b ∨ t.BUCKET_SIZE ≤ i) : t.hopAt b i = 0 := by
  obtain ⟨hbl, htl, hhl, hrow, hhrow, hS, hB⟩ := hwf
  show (t.hop_info.getD b []).getD i 0 = 0
  by_cases hb : b < t.BUCKET_NUMBER
  · rcases h with h | h
    · omega
    · rw [List.getD_eq_default _ _ (by rw [hhrow b hb]; exact h)]
  · have houter : t.hop_info.getD b [] = ([] : List Nat) :=
      List.getD_eq_default _ _ (by rw [hhl]; omega)
    rw [houter]
    rfl

/-! Step equations for the scan helpers of `hopscotch_insert`. -/

theorem nbScanGo_succ (t : HashTable) (k : Field × Field) (b m i : Nat) :
    nbScanGo t k b (m + 1) i =
      if (t.nodeAt b i).taken = false then some (true, i)
      else if (t.nodeAt b i).key = k then some (false, i)
      else nbScanGo t k b m (i + 1) := rfl

theorem nbScanGo_some (t : HashTable) (k : Field × Field) (b : Nat) :
    ∀ (n i : Nat) (r : Bool × Nat), nbScanGo t k b n i = some r →
      i ≤ r.2 ∧ r.2 < i + n ∧
      (r.1 = true → (t.nodeAt b r.2).taken = false) := by
  intro n
  induction n with
  | zero =>
      intro i r h
      cases h
  | succ m ih =>
      intro i r h
      rw [nbScanGo_succ] at h
      split at h
      · rename_i ht
        obtain rfl := Option.some.inj h
        exact ⟨Nat.le_refl i, by omega, fun _ => ht⟩
      · split at h
        · obtain rfl := Option.some.inj h
          refine ⟨Nat.le_refl i, by omega, ?_⟩
          intro hc
          simp at hc
        · obtain ⟨h1, h2, h3⟩ := ih (i + 1) r h
          exact ⟨by omega, by omega, h3⟩

theorem firstEmptyGo_succ (t : HashTable) (b m i : Nat) :
    firstEmptyGo t b (m + 1) i =
      if (t.nodeAt b i).taken = false then some i
      else firstEmptyGo t b m (i + 1) := rfl

theorem firstEmptyGo_some (t : HashTable) (b : Nat) :
    ∀ (n i e : Nat), firstEmptyGo t b n i = some e →
      i ≤ e ∧ e < i + n ∧ (t.nodeAt b e).taken = false := by
  intro n
  induction n with
  | zero =>
      intro i e h
      cases h
  | succ m ih =>
      intro i e h
      rw [firstEmptyGo_succ] at h
      split at h
      · rename_i ht
        obtain rfl := Option.some.inj h
        exact ⟨Nat.le_refl i, by omega, ht⟩
      · obtain ⟨h1, h2, h3⟩ := ih (i + 1) e h
        exact ⟨by omega, by omega, h3⟩

theorem firstHopGo_succ (t : HashTable) (b m c : Nat) :
    firstHopGo t b (m + 1) c =
      if 0 < t.hopAt b c then some c else firstHopGo t b m (c + 1) := rfl

theorem firstHopGo_some (t : HashTable) (b : Nat) :
    ∀ (n c0 c : Nat), firstHopGo t b n c0 = some c →
      c0 ≤ c ∧ 0 < t.hopAt b c := by
  intro n
  induction n with
  | zero =>
      intro c0 c h
      cases h
  | succ m ih =>
      intro c0 c h
      rw [firstHopGo_succ] at h
      split at h
      · rename_i hpos
        obtain rfl := Option.some.inj h
        exact ⟨Nat.le_refl c0, hpos⟩
      · obtain ⟨h1, h2⟩ := ih (c0 + 1) c h
        exact ⟨by omega, h2⟩

theorem topBitGo_cons (x : Nat) (a : Nat) (rest : List Nat) :
    topBitGo x (a :: rest) =
      if x.testBit a then some a else topBitGo x rest := rfl

theorem topBitGo_some (x : Nat) :
    ∀ (l : List Nat) (n : Nat), topBitGo x l = some n →
      n ∈ l ∧ x.testBit n = true := by
  intro l
  induction l with
  | nil =>
      intro n h
      cases h
  | cons a rest ih =>
      intro n h
      rw [topBitGo_cons] at h
      split at h
      · rename_i hbit
        obtain rfl := Option.some.inj h
        exact ⟨List.mem_cons_self _ _, hbit⟩
      · obtain ⟨h1, h2⟩ := ih n h
        exact ⟨List.mem_cons_of_mem _ h1, h2⟩

theorem topBitBelow_some (x H0 n : Nat) (h : topBitBelow x H0 = some n) :
    n < H0 ∧ x.testBit n = true := by
  unfold topBitBelow at h
  obtain ⟨h1, h2⟩ := topBitGo_some x _ n h
  rw [List.mem_reverse, List.mem_range] at h1
  exact ⟨h1, h2⟩

/-! Bounds of the probe results. -/

theorem linearProbeGo_lt (t : HashTable) (k : Field × Field) (b : Nat) :
    ∀ (n i : Nat), i < t.BUCKET_SIZE →
      linearProbeGo t k b n i < t.BUCKET_SIZE := by
  intro n
  induction n with
  | zero =>
      intro i h
      exact h
  | succ m ih =>
      intro i h
      rw [linearProbeGo_succ]
      split
      · exact h
      · split
        · exact h
        · exact ih _ (Nat.mod_lt _ (by omega))

theorem robinHoodGo_lt (t : HashTable) (k : Field × Field) (b : Nat) :
    ∀ (n i d : Nat), i < t.BUCKET_SIZE →
      (robinHoodGo t k b n i d).1 < t.BUCKET_SIZE := by
  intro n
  induction n with
  | zero =>
      intro i d h
      exact h
  | succ m ih =>
      intro i d h
      rw [robinHoodGo_succ]
      split
      · exact h
      · split
        · exact h
        · split
          · exact h
          · exact ih _ _ (Nat.mod_lt _ (by omega))

theorem get_bucket_index_some (t : HashTable) (k : Field × Field)
    (b0 : Nat) (h : get_bucket_index t k = some b0) :
    b0 = bucketHash t k := by
  unfold get_bucket_index at h
  split at h
  · cases h
  · exact (Option.some.inj h).symm

theorem getIndexes_bounds (t : HashTable) (k : Field × Field)
    (b i d : Nat) (hS : 0 < t.BUCKET_SIZE) (hB : 0 < t.BUCKET_NUMBER)
    (h : get_indexes t k = some (b, i, d)) :
    b < t.BUCKET_NUMBER ∧ i < t.BUCKET_SIZE := by
  cases hgb : get_bucket_index t k with
  | none =>
      unfold get_indexes at h
      rw [hgb] at h
      cases h
  | some b0 =>
      have hb0 : b0 = bucketHash t k := get_bucket_index_some t k b0 hgb
      have hb0lt : b0 < t.BUCKET_NUMBER := by
        rw [hb0]
        exact bucketHash_lt t k hB
      rw [get_indexes_shape t k b0 hgb] at h
      by_cases htaken : (t.nodeAt b0 (slotHash t k)).taken = true
      · rw [if_pos htaken] at h
        cases hsch : t.scheme with
        | LinearProbe =>
            rw [hsch] at h
            have h2 : indexCheck t k b0
                (linearProbeGo t k b0 t.BUCKET_SIZE (slotHash t k)) 0 =
                some (b, i, d) := h
            obtain ⟨hb', hi', _⟩ := indexCheck_some t k b0 _ 0 b i d h2
            refine ⟨by omega, ?_⟩
            rw [hi']
            exact linearProbeGo_lt t k b0 _ _ (slotHash_lt t k hS)
        | RobinHood =>
            rw [hsch] at h
            have h2 : some (b0, (robinHoodGo t k b0 t.BUCKET_SIZE
                (slotHash t k) 0).1, (robinHoodGo t k b0 t.BUCKET_SIZE
                (slotHash t k) 0).2) = some (b, i, d) := h
            have h3 := Option.some.inj h2
            rw [Prod.mk.injEq, Prod.mk.injEq] at h3
            refine ⟨by omega, ?_⟩
            rw [← h3.2.1]
            exact robinHoodGo_lt t k b0 _ _ _ (slotHash_lt t k hS)
        | Hopscotch =>
            rw [hsch] at h
            have h3 := Option.some.inj h
            rw [Prod.mk.injEq, Prod.mk.injEq] at h3
            refine ⟨by omega, ?_⟩
            rw [← h3.2.1]
            exact slotHash_lt t k hS
      · rw [if_neg htaken] at h
        obtain ⟨hb', hi', _⟩ := indexCheck_some t k b0 _ 0 b i d h
        refine ⟨by omega, ?_⟩
        rw [hi']
        exact slotHash_lt t k hS

theorem getIndexes_hop (t : HashTable) (k : Field × Field)
    (b i d : Nat) (hs : t.scheme = HashScheme.Hopscotch)
    (h : get_indexes t k = some (b, i, d)) :
    b = bucketHash t k ∧ i = slotHash t k := by
  cases hgb : get_bucket_index t k with
  | none =>
      unfold get_indexes at h
      rw [hgb] at h
      cases h
  | some b0 =>
      have hb0 : b0 = bucketHash t k := get_bucket_index_some t k b0 hgb
      rw [get_indexes_shape t k b0 hgb] at h
      by_cases htaken : (t.nodeAt b0 (slotHash t k)).taken = true
      · rw [if_pos htaken, hs] at h
        have h3 := Option.some.inj h
        rw [Prod.mk.injEq, Prod.mk.injEq] at h3
        exact ⟨by rw [← h3.1, hb0], h3.2.1.symm⟩
      · rw [if_neg htaken] at h
        obtain ⟨hb', hi', _⟩ := indexCheck_some t k b0 _ 0 b i d h
        exact ⟨by rw [hb', hb0], hi'⟩

/-! ## Preservation of the invariant by the elementary table writes -/

theorem bucketsRow_setNode (t : HashTable) (b i : Nat) (nd : HashNode)
    (b' : Nat) :
    (setNode t b i nd).buckets.getD b' [] =
      if b' = b ∧ b < t.buckets.length
      then (t.buckets.getD b []).set i nd
      else t.buckets.getD b' [] := by
  show (t.buckets.set b _).getD b' [] = _
  by_cases hb : b' = b
  · subst hb
    by_cases hbl : b' < t.buckets.length
    · rw [getD_set_self _ _ _ _ hbl, if_pos ⟨rfl, hbl⟩]
    · rw [List.set_eq_of_length_le (by omega), if_neg (fun hc => hbl hc.2)]
  · rw [getD_set_ne _ _ _ _ _ (fun hq => hb hq.symm),
      if_neg (fun hc => hb hc.1)]

theorem hopRow_setHop (t : HashTable) (b i x : Nat) (b' : Nat) :
    (setHop t b i x).hop_info.getD b' [] =
      if b' = b ∧ b < t.hop_info.length
      then (t.hop_info.getD b []).set i x
      else t.hop_info.getD b' [] := by
  show (t.hop_info.set b _).getD b' [] = _
  by_cases hb : b' = b
  · subst hb
    by_cases hbl : b' < t.hop_info.length
    · rw [getD_set_self _ _ _ _ hbl, if_pos ⟨rfl, hbl⟩]
    · rw [List.set_eq_of_length_le (by omega), if_neg (fun hc => hbl hc.2)]
  · rw [getD_set_ne _ _ _ _ _ (fun hq => hb hq.symm),
      if_neg (fun hc => hb hc.1)]

theorem WF_setNode (t : HashTable) (b i : Nat) (nd : HashNode)
    (hwf : WF t) : WF (setNode t b i nd) := by
  obtain ⟨hbl, htl, hhl, hrow, hhrow, hS, hB⟩ := hwf
  refine ⟨?_, htl, hhl, ?_, hhrow, hS, hB⟩
  · show (t.buckets.set b _).length = t.BUCKET_NUMBER
    rw [List.length_set]
    exact hbl
  · intro b' hb'
    rw [bucketsRow_setNode]
    split
    · rename_i hc
      rw [List.length_set]
      exact hrow b (by rw [← hbl]; exact hc.2)
    · exact hrow b' hb'

theorem WF_setHop (t : HashTable) (b i x : Nat) (hwf : WF t) :
    WF (setHop t b i x) := by
  obtain ⟨hbl, htl, hhl, hrow, hhrow, hS, hB⟩ := hwf
  refine ⟨hbl, htl, ?_, hrow, ?_, hS, hB⟩
  · show (t.hop_info.set b _).length = t.BUCKET_NUMBER
    rw [List.length_set]
    exact hhl
  · intro b' hb'
    rw [hopRow_setHop]
    split
    · rename_i hc
      rw [List.length_set]
      exact hhrow b (by rw [← hhl]; exact hc.2)
    · exact hhrow b' hb'

theorem WF_incCount (t : HashTable) (b : Nat) (hwf : WF t) :
    WF (incCount t b) := by
  obtain ⟨hbl, htl, hhl, hrow, hhrow, hS, hB⟩ := hwf
  refine ⟨hbl, ?_, hhl, hrow, hhrow, hS, hB⟩
  show (t.taken_count.set b _).length = t.BUCKET_NUMBER
  rw [List.length_set]
  exact htl

/-- `HopOk` only depends on the scheme, the dimensions, `H`, the hash
function, the hop words, and the key / taken fields of the slots. -/
theorem HopOk_congr (t t' : HashTable)
    (hsch : t'.scheme = t.scheme)
    (hB : t'.BUCKET_NUMBER = t.BUCKET_NUMBER)
    (hS : t'.BUCKET_SIZE = t.BUCKET_SIZE) (hH : t'.H = t.H)
    (hhf : t'.hashF = t.hashF)
    (hhop : ∀ b i, t'.hopAt b i = t.hopAt b i)
    (hkey : ∀ b i, (t'.nodeAt b i).key = (t.nodeAt b i).key)
    (htk : ∀ b i, (t'.nodeAt b i).taken = (t.nodeAt b i).taken)
    (h : HopOk t) : HopOk t' := by
  intro hsch' b hb
  rw [hsch] at hsch'
  rw [hB] at hb
  obtain ⟨h1, h2⟩ := h hsch' b hb
  have hslot : ∀ k', slotHash t' k' = slotHash t k' := by
    intro k'
    unfold slotHash
    rw [hhf, hS]
  constructor
  · intro j hj htkj
    rw [hS] at hj
    rw [htk] at htkj
    rw [hslot, hkey, hH]
    exact h1 j hj htkj
  · intro h0 hh0
    rw [hS] at hh0
    obtain ⟨hlt, hbit⟩ := h2 h0 hh0
    constructor
    · rw [hhop, hH]
      exact hlt
    · intro n hn
      rw [hH] at hn
      rw [hhop, hH, hS, htk, hkey, hslot]
      exact hbit n hn

theorem nodeAt_bump (t : HashTable) (b i v : Nat) (b' i' : Nat) :
    (bumpValue t b i v).nodeAt b' i' =
      if b' = b ∧ i' = i ∧ b < t.buckets.length ∧
          i < (t.buckets.getD b []).length
      then { t.nodeAt b i with value := (t.nodeAt b i).value + v }
      else t.nodeAt b' i' :=
  nodeAt_setNode t b i _ b' i'

theorem bump_key_taken (t : HashTable) (b i v b' i' : Nat) :
    ((bumpValue t b i v).nodeAt b' i').key = (t.nodeAt b' i').key ∧
    ((bumpValue t b i v).nodeAt b' i').taken = (t.nodeAt b' i').taken := by
  rw [nodeAt_bump]
  split
  · rename_i hc
    obtain ⟨rfl, rfl, _, _⟩ := hc
    exact ⟨rfl, rfl⟩
  · exact ⟨rfl, rfl⟩

/-- `buckets[b][i].value += v` preserves the whole invariant. -/
theorem Inv_bump (t : HashTable) (b i v : Nat) (hinv : Inv t)
    (hb : b < t.BUCKET_NUMBER) (hi : i < t.BUCKET_SIZE) :
    Inv (bumpValue t b i v) := by
  obtain ⟨hwf, hcnt, hhop⟩ := hinv
  obtain ⟨hbl, htl, hhl, hrow, hhrow, hS, hB⟩ := hwf
  have hil : i < (t.buckets.getD b []).length := by
    rw [hrow b hb]
    omega
  refine ⟨WF_setNode t b i _ ⟨hbl, htl, hhl, hrow, hhrow, hS, hB⟩, ?_, ?_⟩
  · intro b' hb'
    have hcc : (bumpValue t b i v).countAt b' = t.countAt b' := rfl
    rw [hcc]
    show _ = countTaken ((setNode t b i _).buckets.getD b' [])
    rw [bucketsRow_setNode]
    split
    · rename_i hc
      obtain ⟨rfl, _⟩ := hc
      have h2 := countTaken_set (t.buckets.getD b' []) i
        { t.nodeAt b' i with value := (t.nodeAt b' i).value + v } hil
      have h3 : (t.buckets.getD b' []).getD i defaultNode =
          t.nodeAt b' i := rfl
      have h4 : ({ t.nodeAt b' i with
          value := (t.nodeAt b' i).value + v }).taken =
          (t.nodeAt b' i).taken := rfl
      rw [h3, h4] at h2
      rw [hcnt b' hb']
      omega
    · exact hcnt b' hb'
  · exact HopOk_congr t (bumpValue t b i v) rfl rfl rfl rfl rfl
      (fun _ _ => rfl)
      (fun b' i' => (bump_key_taken t b i v b' i').1)
      (fun b' i' => (bump_key_taken t b i v b' i').2) hhop

/-- The plain-insertion write of a fresh node into an untaken slot, under
LinearProbe / RobinHood (the Hopscotch branch never reaches it). -/
theorem Inv_place (t : HashTable) (b i : Nat) (k : Field × Field)
    (v d : Nat) (hinv : Inv t)
    (hsch : t.scheme ≠ HashScheme.Hopscotch)
    (hb : b < t.BUCKET_NUMBER) (hi : i < t.BUCKET_SIZE)
    (hun : (t.nodeAt b i).taken = false) :
    Inv (placeNode t b i k v d) := by
  obtain ⟨hwf, hcnt, hhop⟩ := hinv
  obtain ⟨hbl, htl, hhl, hrow, hhrow, hS, hB⟩ := hwf
  have hil : i < (t.buckets.getD b []).length := by
    rw [hrow b hb]
    omega
  refine ⟨WF_incCount _ b (WF_setNode t b i _
      ⟨hbl, htl, hhl, hrow, hhrow, hS, hB⟩), ?_, ?_⟩
  · intro b' hb'
    show (incCount (setNode t b i _) b).countAt b' =
      countTaken ((setNode t b i _).buckets.getD b' [])
    rw [countAt_incCount, bucketsRow_setNode]
    by_cases hc : b' = b
    · subst hc
      rw [if_pos ⟨rfl, by rw [setNode_taken_count, htl]; omega⟩,
        if_pos ⟨rfl, by omega⟩]
      have h2 := countTaken_set (t.buckets.getD b' []) i
        { key := k, value := v, taken := true, dis := d } hil
      have h3 : (t.buckets.getD b' []).getD i defaultNode =
          t.nodeAt b' i := rfl
      rw [h3, hun] at h2
      have h4 : ({ key := k, value := v, taken := true, dis := d } :
          HashNode).taken = true := rfl
      have hif1 : (if true = true then (1 : Nat) else 0) = 1 := rfl
      have hif0 : (if false = true then (1 : Nat) else 0) = 0 := rfl
      rw [h4, hif1, hif0] at h2
      have hcc : (setNode t b' i
          { key := k, value := v, taken := true, dis := d }).countAt b' =
          t.countAt b' := rfl
      rw [hcc, hcnt b' hb']
      omega
    · rw [if_neg (fun hq => hc hq.1), if_neg (fun hq => hc hq.1)]
      have hcc : (setNode t b i
          { key := k, value := v, taken := true, dis := d }).countAt b' =
          t.countAt b' := rfl
      rw [hcc]
      exact hcnt b' hb'
  · intro hs'
    exact absurd hs' hsch

/-- The RobinHood displacement overwrite of a taken slot (counter left
alone). -/
theorem Inv_replace (t : HashTable) (b i : Nat) (k : Field × Field)
    (v d : Nat) (hinv : Inv t)
    (hsch : t.scheme ≠ HashScheme.Hopscotch)
    (hb : b < t.BUCKET_NUMBER) (hi : i < t.BUCKET_SIZE)
    (htk : (t.nodeAt b i).taken = true) :
    Inv (replaceNode t b i k v d) := by
  obtain ⟨hwf, hcnt, hhop⟩ := hinv
  obtain ⟨hbl, htl, hhl, hrow, hhrow, hS, hB⟩ := hwf
  have hil : i < (t.buckets.getD b []).length := by
    rw [hrow b hb]
    omega
  refine ⟨WF_setNode t b i _ ⟨hbl, htl, hhl, hrow, hhrow, hS, hB⟩, ?_, ?_⟩
  · intro b' hb'
    have hcc : (replaceNode t b i k v d).countAt b' = t.countAt b' := rfl
    rw [hcc]
    show _ = countTaken ((setNode t b i _).buckets.getD b' [])
    rw [bucketsRow_setNode]
    split
    · rename_i hc
      obtain ⟨rfl, _⟩ := hc
      have h2 := countTaken_set (t.buckets.getD b' []) i
        { key := k, value := v, taken := true, dis := d } hil
      have h3 : (t.buckets.getD b' []).getD i defaultNode =
          t.nodeAt b' i := rfl
      rw [h3, htk] at h2
      have h4 : ({ key := k, value := v, taken := true, dis := d } :
          HashNode).taken = true := rfl
      have hif1 : (if true = true then (1 : Nat) else 0) = 1 := rfl
      rw [h4, hif1] at h2
      rw [hcnt b' hb']
      omega
    · exact hcnt b' hb'
  · intro hs'
    exact absurd hs' hsch

/-! The freshly allocated table of `extend`. -/

theorem hopAt_freshDoubled (t : HashTable) (b i : Nat) :
    (freshDoubled t).hopAt b i = 0 := by
  cases ht : t.extend_op <;>
    · simp only [freshDoubled, ht]
      show ((List.replicate _ (List.replicate _ 0)).getD b []).getD i 0 = 0
      rw [getD_replicate]
      split
      · rw [getD_replicate]
        split <;> rfl
      · rfl

theorem countAt_freshDoubled (t : HashTable) (b : Nat) :
    (freshDoubled t).countAt b = 0 := by
  cases ht : t.extend_op <;>
    · simp only [freshDoubled, ht]
      show (List.replicate _ 0).getD b 0 = 0
      rw [getD_replicate]
      split <;> rfl

theorem bucketsRow_freshDoubled (t : HashTable) (b : Nat) :
    countTaken ((freshDoubled t).buckets.getD b []) = 0 := by
  cases ht : t.extend_op <;>
    · simp only [freshDoubled, ht]
      show countTaken ((List.replicate _
        (List.replicate _ defaultNode)).getD b []) = 0
      rw [getD_replicate]
      split
      · exact countTaken_replicate _
      · rfl

theorem WF_freshDoubled (t : HashTable) (hS : 0 < t.BUCKET_SIZE)
    (hB : 0 < t.BUCKET_NUMBER) : WF (freshDoubled t) := by
  cases ht : t.extend_op with
  | ExtendBucketSize =>
      simp only [freshDoubled, ht]
      refine ⟨List.length_replicate _ _, List.length_replicate _ _,
        List.length_replicate _ _, ?_, ?_,
        show 0 < t.BUCKET_SIZE * 2 by omega,
        show 0 < t.BUCKET_NUMBER from hB⟩ <;>
        · intro b hb
          rw [getD_replicate, if_pos hb]
          exact List.length_replicate _ _
  | ExtendBucketNumber =>
      simp only [freshDoubled, ht]
      refine ⟨List.length_replicate _ _, List.length_replicate _ _,
        List.length_replicate _ _, ?_, ?_,
        show 0 < t.BUCKET_SIZE from hS,
        show 0 < t.BUCKET_NUMBER * 2 by omega⟩ <;>
        · intro b hb
          rw [getD_replicate, if_pos hb]
          exact List.length_replicate _ _

theorem Inv_freshDoubled (t : HashTable) (hS : 0 < t.BUCKET_SIZE)
    (hB : 0 < t.BUCKET_NUMBER) : Inv (freshDoubled t) := by
  refine ⟨WF_freshDoubled t hS hB, ?_, ?_⟩
  · intro b hb
    rw [countAt_freshDoubled, bucketsRow_freshDoubled]
  · intro _ b hb
    constructor
    · intro j hj htk
      rw [nodeAt_freshDoubled] at htk
      cases htk
    · intro h0 hh0
      rw [hopAt_freshDoubled]
      refine ⟨Nat.two_pow_pos _, ?_⟩
      intro n hn
      rw [Nat.zero_testBit]
      constructor
      · intro hc
        cases hc
      · intro hc
        rw [nodeAt_freshDoubled] at hc
        cases hc.2.1

/-! ## Preservation of the invariant by the Hopscotch placement -/

theorem placeHop_eq (t : HashTable) (b index i : Nat) (k : Field × Field)
    (v : Nat) :
    placeHop t b index i k v =
      incCount (setHop (setNode t b i
          { key := k, value := v, taken := true, dis := 0 }) b index
        (t.hopAt b index ||| 2 ^ (t.H - 1 - (i - index)))) b := rfl

theorem nodeAt_placeHop (t : HashTable) (b index i : Nat)
    (k : Field × Field) (v : Nat) (b' i' : Nat) :
    (placeHop t b index i k v).nodeAt b' i' =
      if b' = b ∧ i' = i ∧ b < t.buckets.length ∧
          i < (t.buckets.getD b []).length
      then { key := k, value := v, taken := true, dis := 0 }
      else t.nodeAt b' i' := by
  rw [placeHop_eq, incCount_nodeAt, setHop_nodeAt]
  exact nodeAt_setNode t b i _ b' i'

theorem hopAt_placeHop (t : HashTable) (b index i : Nat)
    (k : Field × Field) (v : Nat) (b' h' : Nat) :
    (placeHop t b index i k v).hopAt b' h' =
      if b' = b ∧ h' = index ∧ b < t.hop_info.length ∧
          index < (t.hop_info.getD b []).length
      then t.hopAt b index ||| 2 ^ (t.H - 1 - (i - index))
      else t.hopAt b' h' := by
  rw [placeHop_eq, incCount_hopAt, hopAt_setHop]
  simp only [setNode_hop_info, setNode_hopAt]

theorem countAt_placeHop (t : HashTable) (b index i : Nat)
    (k : Field × Field) (v : Nat) (b' : Nat) :
    (placeHop t b index i k v).countAt b' =
      if b' = b ∧ b < t.taken_count.length then t.countAt b + 1
      else t.countAt b' := by
  rw [placeHop_eq, countAt_incCount]
  simp only [setHop_taken_count, setNode_taken_count, setHop_countAt,
    setNode_countAt]

theorem bucketsRow_placeHop (t : HashTable) (b index i : Nat)
    (k : Field × Field) (v : Nat) (b' : Nat) :
    (placeHop t b index i k v).buckets.getD b' [] =
      if b' = b ∧ b < t.buckets.length
      then (t.buckets.getD b []).set i
        { key := k, value := v, taken := true, dis := 0 }
      else t.buckets.getD b' [] := by
  rw [placeHop_eq]
  show (setNode t b i _).buckets.getD b' [] = _
  exact bucketsRow_setNode t b i _ b'

theorem slotHash_placeHop (t : HashTable) (b index i : Nat)
    (k : Field × Field) (v : Nat) (k' : Field × Field) :
    slotHash (placeHop t b index i k v) k' = slotHash t k' := rfl

theorem H_placeHop (t : HashTable) (b index i : Nat) (k : Field × Field)
    (v : Nat) : (placeHop t b index i k v).H = t.H := rfl

theorem size_placeHop (t : HashTable) (b index i : Nat)
    (k : Field × Field) (v : Nat) :
    (placeHop t b index i k v).BUCKET_SIZE = t.BUCKET_SIZE := rfl

/-- A Hopscotch placement into an untaken in-window slot preserves the
invariant. -/
theorem Inv_placeHop (t : HashTable) (b index i : Nat)
    (k : Field × Field) (v : Nat) (hinv : Inv t)
    (hsch : t.scheme = HashScheme.Hopscotch)
    (hb : b < t.BUCKET_NUMBER)
    (hidx : index = slotHash t k)
    (hle : index ≤ i) (hiH : i < index + t.H) (hiS : i < t.BUCKET_SIZE)
    (hun : (t.nodeAt b i).taken = false) :
    Inv (placeHop t b index i k v) := by
  obtain ⟨hwf, hcnt, hhop⟩ := hinv
  obtain ⟨hbl, htl, hhl, hrow, hhrow, hS, hB⟩ := hwf
  have hidxS : index < t.BUCKET_SIZE := by
    rw [hidx]
    exact slotHash_lt t k (by omega)
  have hH1 : 1 ≤ t.H := by omega
  have hpH : t.H - 1 - (i - index) < t.H := by omega
  have hpi : index + (t.H - 1 - (t.H - 1 - (i - index))) = i := by omega
  have hword := (hhop hsch b hb).2 index hidxS
  refine ⟨?_, ?_, ?_⟩
  · rw [placeHop_eq]
    exact WF_incCount _ b (WF_setHop _ b index _
      (WF_setNode t b i _ ⟨hbl, htl, hhl, hrow, hhrow, hS, hB⟩))
  · intro b' hb'
    have hb'' : b' < t.BUCKET_NUMBER := hb'
    rw [countAt_placeHop, bucketsRow_placeHop]
    by_cases hc : b' = b
    · subst hc
      rw [if_pos ⟨rfl, by omega⟩, if_pos ⟨rfl, by omega⟩]
      have h2 := countTaken_set (t.buckets.getD b' []) i
        { key := k, value := v, taken := true, dis := 0 }
        (by rw [hrow b' hb'']; omega)
      have h3 : (t.buckets.getD b' []).getD i defaultNode =
          t.nodeAt b' i := rfl
      rw [h3, hun] at h2
      have h4 : ({ key := k, value := v, taken := true, dis := 0 } :
          HashNode).taken = true := rfl
      have hif1 : (if true = true then (1 : Nat) else 0) = 1 := rfl
      have hif0 : (if false = true then (1 : Nat) else 0) = 0 := rfl
      rw [h4, hif1, hif0] at h2
      rw [hcnt b' hb'']
      omega
    · rw [if_neg (fun hq => hc hq.1), if_neg (fun hq => hc hq.1)]
      exact hcnt b' hb''
  · intro _ b' hb'
    have hb'' : b' < t.BUCKET_NUMBER := hb'
    have hobB := hhop hsch b' hb''
    have hc1 : b < t.buckets.length := by omega
    have hc2 : i < (t.buckets.getD b []).length := by
      rw [hrow b hb]
      omega
    have hc3 : b < t.hop_info.length := by omega
    have hc4 : index < (t.hop_info.getD b []).length := by
      rw [hhrow b hb]
      omega
    simp only [nodeAt_placeHop, hopAt_placeHop, slotHash_placeHop,
      H_placeHop, size_placeHop, hc1, hc2, hc3, hc4, and_true]
    constructor
    · intro j hj htk
      by_cases hcn : b' = b ∧ j = i
      · rw [if_pos hcn] at htk ⊢
        show slotHash t k ≤ j ∧ j < slotHash t k + t.H
        rw [← hidx]
        omega
      · rw [if_neg hcn] at htk ⊢
        exact hobB.1 j hj htk
    · intro h0 hh0
      by_cases hcw : b' = b ∧ h0 = index
      · have hcb : b' = b := hcw.1
        have hch : h0 = index := hcw.2
        rw [if_pos hcw]
        constructor
        · exact Nat.or_lt_two_pow hword.1
            (Nat.pow_lt_pow_right (by omega) hpH)
        · intro n hn
          rw [Nat.testBit_or]
          by_cases hnp : n = t.H - 1 - (i - index)
          · rw [hnp, Nat.testBit_two_pow_self, Bool.or_true]
            have hslot : h0 + (t.H - 1 - (t.H - 1 - (i - index))) = i := by
              omega
            rw [hslot]
            rw [if_pos (⟨hcb, rfl⟩ : b' = b ∧ i = i)]
            constructor
            · intro _
              refine ⟨by omega, rfl, ?_⟩
              show slotHash t k = h0
              rw [← hidx, hch]
            · intro _
              rfl
          · rw [Nat.testBit_two_pow_of_ne (fun hq => hnp hq.symm),
              Bool.or_false]
            have hne : h0 + (t.H - 1 - n) ≠ i := by
              intro hq
              apply hnp
              omega
            rw [if_neg (fun hq => hne hq.2)]
            rw [hcb, hch]
            exact (hword.2 n hn)
      · rw [if_neg hcw]
        have hdis := hobB.2 h0 hh0
        refine ⟨hdis.1, ?_⟩
        intro n hn
        by_cases hcn : b' = b ∧ h0 + (t.H - 1 - n) = i
        · rw [if_pos hcn]
          have hh0ne : h0 ≠ index := fun hq => hcw ⟨hcn.1, hq⟩
          constructor
          · intro hbit
            obtain ⟨c1, c2, c3⟩ := (hdis.2 n hn).mp hbit
            rw [hcn.1, hcn.2] at c2
            rw [hun] at c2
            cases c2
          · intro hrhs
            exfalso
            apply hh0ne
            have hc5 : slotHash t k = h0 := hrhs.2.2
            rw [← hidx] at hc5
            exact hc5.symm
        · rw [if_neg hcn]
          exact hdis.2 n hn

/-! ## Preservation of the invariant by one Hopscotch swap -/

theorem swapMove_eq (t : HashTable) (b c n src empty : Nat) :
    swapMove t b c n src empty =
      setHop (setNode (setNode t b empty
          { t.nodeAt b src with taken := true }) b src defaultNode) b c
        (t.hopAt b c - 2 ^ n + 2 ^ (t.H - 1 - (empty - c))) := rfl

theorem buckets_length_setNode (t : HashTable) (b i : Nat)
    (nd : HashNode) :
    (setNode t b i nd).buckets.length = t.buckets.length := by
  show (t.buckets.set b _).length = _
  rw [List.length_set]

theorem bucketsRowLen_setNode (t : HashTable) (b i : Nat) (nd : HashNode)
    (b' : Nat) :
    ((setNode t b i nd).buckets.getD b' []).length =
      (t.buckets.getD b' []).length := by
  rw [bucketsRow_setNode]
  split
  · rename_i hc
    rw [List.length_set, hc.1]
  · rfl

theorem nodeAt_swapMove (t : HashTable) (b c n src empty : Nat)
    (hbb : b < t.buckets.length)
    (hsrcL : src < (t.buckets.getD b []).length)
    (hempL : empty < (t.buckets.getD b []).length) (b' i' : Nat) :
    (swapMove t b c n src empty).nodeAt b' i' =
      if b' = b ∧ i' = src then defaultNode
      else if b' = b ∧ i' = empty
      then { t.nodeAt b src with taken := true }
      else t.nodeAt b' i' := by
  rw [swapMove_eq, setHop_nodeAt, nodeAt_setNode, nodeAt_setNode]
  simp only [buckets_length_setNode, bucketsRowLen_setNode, hbb, hsrcL,
    hempL, and_true]

theorem hopAt_swapMove (t : HashTable) (b c n src empty : Nat)
    (hbh : b < t.hop_info.length)
    (hchL : c < (t.hop_info.getD b []).length) (b' h' : Nat) :
    (swapMove t b c n src empty).hopAt b' h' =
      if b' = b ∧ h' = c
      then t.hopAt b c - 2 ^ n + 2 ^ (t.H - 1 - (empty - c))
      else t.hopAt b' h' := by
  rw [swapMove_eq, hopAt_setHop]
  simp only [setNode_hop_info, setNode_hopAt, hbh, hchL, and_true]

theorem countAt_swapMove (t : HashTable) (b c n src empty : Nat)
    (b' : Nat) :
    (swapMove t b c n src empty).countAt b' = t.countAt b' := rfl

theorem bucketsRow_swapMove (t : HashTable) (b c n src empty : Nat)
    (b' : Nat) :
    (swapMove t b c n src empty).buckets.getD b' [] =
      if b' = b ∧ b < t.buckets.length
      then ((t.buckets.getD b []).set empty
          { t.nodeAt b src with taken := true }).set src defaultNode
      else t.buckets.getD b' [] := by
  rw [swapMove_eq]
  show (setNode (setNode t b empty _) b src _).buckets.getD b' [] = _
  rw [bucketsRow_setNode]
  simp only [buckets_length_setNode]
  by_cases hc : b' = b ∧ b < t.buckets.length
  · rw [if_pos hc, if_pos hc, bucketsRow_setNode, if_pos ⟨rfl, hc.2⟩]
  · rw [if_neg hc, if_neg hc, bucketsRow_setNode]
    rw [if_neg (fun hq => hc ⟨hq.1, hq.2⟩)]

theorem slotHash_swapMove (t : HashTable) (b c n src empty : Nat)
    (k' : Field × Field) :
    slotHash (swapMove t b c n src empty) k' = slotHash t k' := rfl

theorem H_swapMove (t : HashTable) (b c n src empty : Nat) :
    (swapMove t b c n src empty).H = t.H := rfl

theorem size_swapMove (t : HashTable) (b c n src empty : Nat) :
    (swapMove t b c n src empty).BUCKET_SIZE = t.BUCKET_SIZE := rfl

/-- One swap of `hopscotch_insert`'s `'inner` loop preserves the
invariant: the occupant of `src` (owned by bit `n` of `hop[b][c]`) moves
to the empty slot `empty` of the same neighborhood, and the bitmap
exchanges the two offset bits. -/
theorem Inv_swapMove (t : HashTable) (b c n src empty : Nat)
    (hinv : Inv t) (hsch : t.scheme = HashScheme.Hopscotch)
    (hb : b < t.BUCKET_NUMBER) (hcS : c < t.BUCKET_SIZE)
    (hn : n < t.H)
    (hbit : (t.hopAt b c).testBit n = true)
    (hsrc : src = c + (t.H - 1 - n))
    (hse : src < empty) (hemp : empty < t.BUCKET_SIZE)
    (hunE : (t.nodeAt b empty).taken = false)
    (hec : empty ≤ c + (t.H - 1)) :
    Inv (swapMove t b c n src empty) := by
  obtain ⟨hwf, hcnt, hhop⟩ := hinv
  obtain ⟨hbl, htl, hhl, hrow, hhrow, hS, hB⟩ := hwf
  have hH1 : 1 ≤ t.H := by omega
  have hw := (hhop hsch b hb).2 c hcS
  have hsf := (hw.2 n hn).mp hbit
  rw [← hsrc] at hsf
  obtain ⟨hsrcS, htkS, hslC⟩ := hsf
  have hpH : t.H - 1 - (empty - c) < t.H := by omega
  have hpe : c + (t.H - 1 - (t.H - 1 - (empty - c))) = empty := by omega
  have hnsrc : c + (t.H - 1 - n) = src := hsrc.symm
  have hpne : t.H - 1 - (empty - c) ≠ n := by omega
  -- bit p of the old word is clear: its claimed slot `empty` is untaken
  have hpcl : (t.hopAt b c).testBit (t.H - 1 - (empty - c)) = false := by
    cases hq : (t.hopAt b c).testBit (t.H - 1 - (empty - c)) with
    | false => rfl
    | true =>
        obtain ⟨d1, d2, d3⟩ := (hw.2 _ hpH).mp hq
        rw [hpe] at d2
        rw [hunE] at d2
        cases d2
  have hsur := clear_set_bit (t.hopAt b c) n (t.H - 1 - (empty - c)) t.H
    hw.1 hbit hpcl hpH
  have hbb : b < t.buckets.length := by omega
  have hsrcL : src < (t.buckets.getD b []).length := by
    rw [hrow b hb]
    omega
  have hempL : empty < (t.buckets.getD b []).length := by
    rw [hrow b hb]
    omega
  have hbh : b < t.hop_info.length := by omega
  have hchL : c < (t.hop_info.getD b []).length := by
    rw [hhrow b hb]
    omega
  refine ⟨?_, ?_, ?_⟩
  · rw [swapMove_eq]
    exact WF_setHop _ b c _ (WF_setNode _ b src _ (WF_setNode t b empty _
      ⟨hbl, htl, hhl, hrow, hhrow, hS, hB⟩))
  · intro b' hb'
    have hb'' : b' < t.BUCKET_NUMBER := hb'
    rw [countAt_swapMove, bucketsRow_swapMove]
    by_cases hc : b' = b
    · subst hc
      rw [if_pos ⟨rfl, hbb⟩]
      have h1 := countTaken_set (t.buckets.getD b' []) empty
        { t.nodeAt b' src with taken := true } hempL
      have h2 := countTaken_set ((t.buckets.getD b' []).set empty
          { t.nodeAt b' src with taken := true }) src defaultNode
        (by rw [List.length_set]; exact hsrcL)
      have h3 : ((t.buckets.getD b' []).set empty
          { t.nodeAt b' src with taken := true }).getD src defaultNode =
          (t.buckets.getD b' []).getD src defaultNode :=
        getD_set_ne _ _ _ _ _ (by omega)
      have h4 : (t.buckets.getD b' []).getD src defaultNode =
          t.nodeAt b' src := rfl
      have h5 : (t.buckets.getD b' []).getD empty defaultNode =
          t.nodeAt b' empty := rfl
      rw [h3, h4] at h2
      rw [h5] at h1
      rw [htkS] at h2
      rw [hunE] at h1
      have h6 : ({ t.nodeAt b' src with taken := true } : HashNode).taken =
          true := rfl
      rw [h6] at h1
      have hifd : (if defaultNode.taken = true then (1 : Nat) else 0) = 0 :=
        rfl
      have hif1 : (if true = true then (1 : Nat) else 0) = 1 := rfl
      have hif0 : (if false = true then (1 : Nat) else 0) = 0 := rfl
      rw [hif1, hif0] at h1
      rw [hif1, hifd] at h2
      rw [hcnt b' hb'']
      omega
    · rw [if_neg (fun hq => hc hq.1)]
      exact hcnt b' hb''
  · intro _ b' hb'
    have hb'' : b' < t.BUCKET_NUMBER := hb'
    have hobB := hhop hsch b' hb''
    simp only [nodeAt_swapMove t b c n src empty hbb hsrcL hempL,
      hopAt_swapMove t b c n src empty hbh hchL, slotHash_swapMove,
      H_swapMove, size_swapMove]
    constructor
    · intro j hj htk
      by_cases hc1 : b' = b ∧ j = src
      · rw [if_pos hc1] at htk
        exact absurd htk (by decide)
      · rw [if_neg hc1] at htk ⊢
        by_cases hc2 : b' = b ∧ j = empty
        · rw [if_pos hc2] at htk ⊢
          have hkX : slotHash t ({ t.nodeAt b src with taken := true } :
              HashNode).key = c := hslC
          rw [hkX]
          omega
        · rw [if_neg hc2] at htk ⊢
          exact hobB.1 j hj htk
    · intro h0 hh0
      by_cases hcw : b' = b ∧ h0 = c
      · rw [if_pos hcw]
        refine ⟨hsur.1, ?_⟩
        intro n' hn'
        rw [hsur.2 n']
        by_cases h1 : n' = n
        · rw [if_pos h1]
          have hclaim : h0 + (t.H - 1 - n') = src := by
            rw [hcw.2, h1]
            exact hnsrc
          rw [hclaim, if_pos ⟨hcw.1, rfl⟩]
          constructor
          · intro hq
            exact absurd hq (by decide)
          · intro hq
            exact absurd hq.2.1 (by decide)
        · rw [if_neg h1]
          by_cases h2 : n' = t.H - 1 - (empty - c)
          · rw [if_pos h2]
            have hclaim : h0 + (t.H - 1 - n') = empty := by
              rw [hcw.2, h2]
              exact hpe
            rw [hclaim]
            have hnemp : ¬ (b' = b ∧ empty = src) := fun hq => by omega
            rw [if_neg hnemp, if_pos ⟨hcw.1, rfl⟩]
            constructor
            · intro _
              refine ⟨by omega, rfl, ?_⟩
              have hkX : slotHash t ({ t.nodeAt b src with taken := true } :
                  HashNode).key = c := hslC
              rw [hkX, hcw.2]
            · intro _
              rfl
          · rw [if_neg h2]
            have hnsrc' : h0 + (t.H - 1 - n') ≠ src := by
              rw [hcw.2]
              intro hq
              apply h1
              omega
            have hnemp' : h0 + (t.H - 1 - n') ≠ empty := by
              rw [hcw.2]
              intro hq
              apply h2
              omega
            rw [if_neg (fun hq => hnsrc' hq.2),
              if_neg (fun hq => hnemp' hq.2)]
            rw [hcw.1, hcw.2]
            exact hw.2 n' hn'
      · rw [if_neg hcw]
        have hold := hobB.2 h0 hh0
        refine ⟨hold.1, ?_⟩
        intro n' hn'
        by_cases hc1 : b' = b ∧ h0 + (t.H - 1 - n') = src
        · rw [if_pos hc1]
          constructor
          · intro hbit'
            obtain ⟨d1, d2, d3⟩ := (hold.2 n' hn').mp hbit'
            exfalso
            apply hcw
            refine ⟨hc1.1, ?_⟩
            rw [hc1.2, hc1.1] at d3
            rw [d3] at hslC
            exact hslC
          · intro hq
            exact absurd hq.2.1 (by decide)
        · rw [if_neg hc1]
          by_cases hc2 : b' = b ∧ h0 + (t.H - 1 - n') = empty
          · rw [if_pos hc2]
            constructor
            · intro hbit'
              obtain ⟨d1, d2, d3⟩ := (hold.2 n' hn').mp hbit'
              rw [hc2.2, hc2.1] at d2
              rw [hunE] at d2
              cases d2
            · intro hq
              exfalso
              apply hcw
              refine ⟨hc2.1, ?_⟩
              have hkX : slotHash t ({ t.nodeAt b src with taken := true } :
                  HashNode).key = c := hslC
              rw [hkX] at hq
              exact hq.2.2.symm
          · rw [if_neg hc2]
            exact hold.2 n' hn'

/-! ## Preservation of the invariant by the whole insert cluster -/

theorem Inv_preserve :
    ∀ (fuel : Nat) (t : HashTable) (c : Call) (t' : HashTable),
      CallOk t c → Inv t → exec fuel t c = some t' → Inv t' := by
  intro fuel
  induction fuel with
  | zero =>
      intro t c t' _ _ hx
      rw [exec_zero] at hx
      cases hx
  | succ f ih =>
      intro t c t' hok hinv hx
      cases c with
      | ins k v =>
          rw [exec_ins] at hx
          split at hx
          · cases hx
          · rename_i t1 hpre
            have hinv1 : Inv t1 :=
              ih t (Call.pre k v (List.range t.BUCKET_NUMBER)) t1 trivial
                hinv hpre
            split at hx
            · rename_i b i d hgi
              have hS1 : 0 < t1.BUCKET_SIZE := hinv1.1.2.2.2.2.2.1
              have hB1 : 0 < t1.BUCKET_NUMBER := hinv1.1.2.2.2.2.2.2
              obtain ⟨hbB, hiS⟩ := getIndexes_bounds t1 k b i d hS1 hB1 hgi
              split at hx
              · rename_i hsch
                obtain ⟨hbh, hih⟩ := getIndexes_hop t1 k b i d hsch hgi
                exact ih t1 (Call.hop k v b i) t'
                  (show CallOk t1 (Call.hop k v b i) from ⟨hsch, hbh, hih⟩)
                  hinv1 hx
              · rename_i hsch
                split at hx
                · rw [← Option.some.inj hx]
                  exact Inv_bump t1 b i v hinv1 hbB hiS
                · split at hx
                  · rename_i htk
                    rw [← Option.some.inj hx]
                    exact Inv_place t1 b i k v d hinv1 hsch hbB hiS htk
                  · rename_i htk
                    have htk' : (t1.nodeAt b i).taken = true := by
                      cases hq : (t1.nodeAt b i).taken with
                      | false => exact absurd hq htk
                      | true => rfl
                    exact ih _ (Call.ins (t1.nodeAt b i).key
                        (t1.nodeAt b i).value) t' trivial
                      (Inv_replace t1 b i k v d hinv1 hsch hbB hiS htk') hx
            · split at hx
              · cases hx
              · rename_i t2 hext
                have hinv2 : Inv t2 := ih t1 Call.ext t2 trivial hinv1 hext
                exact ih t2 (Call.ins k v) t' trivial hinv2 hx
      | pre k v is =>
          cases is with
          | nil =>
              rw [exec_pre_nil] at hx
              rw [← Option.some.inj hx]
              exact hinv
          | cons i rest =>
              rw [exec_pre_cons] at hx
              split at hx
              · split at hx
                · cases hx
                · rename_i t1 hext
                  split at hx
                  · cases hx
                  · rename_i t2 hins
                    have h1 : Inv t1 := ih t Call.ext t1 trivial hinv hext
                    have h2 : Inv t2 :=
                      ih t1 (Call.ins k v) t2 trivial h1 hins
                    exact ih t2 (Call.pre k v rest) t' trivial h2 hx
              · exact ih t (Call.pre k v rest) t' trivial hinv hx
      | ext =>
          rw [exec_ext] at hx
          split at hx
          · cases hx
          · exact ih (freshDoubled t) (Call.reins (takenNodes t)) t'
              trivial
              (Inv_freshDoubled t hinv.1.2.2.2.2.2.1 hinv.1.2.2.2.2.2.2) hx
      | reins nds =>
          cases nds with
          | nil =>
              rw [exec_reins_nil] at hx
              rw [← Option.some.inj hx]
              exact hinv
          | cons nd rest =>
              rw [exec_reins_cons] at hx
              split at hx
              · cases hx
              · rename_i t1 hins
                have h1 : Inv t1 :=
                  ih t (Call.ins nd.key nd.value) t1 trivial hinv hins
                exact ih t1 (Call.reins rest) t' trivial h1 hx
      | hop k v b index =>
          obtain ⟨hsch, hbk, hik⟩ := hok
          rw [exec_hop] at hx
          have hS0 : 0 < t.BUCKET_SIZE := hinv.1.2.2.2.2.2.1
          have hB0 : 0 < t.BUCKET_NUMBER := hinv.1.2.2.2.2.2.2
          have hbB : b < t.BUCKET_NUMBER := by
            rw [hbk]
            exact bucketHash_lt t k hB0
          have hiS : index < t.BUCKET_SIZE := by
            rw [hik]
            exact slotHash_lt t k hS0
          split at hx
          · split at hx
            · cases hx
            · rename_i t1 hext
              have h1 : Inv t1 := ih t Call.ext t1 trivial hinv hext
              exact ih t1 (Call.ins k v) t' trivial h1 hx
          · split at hx
            · rename_i i hscan
              rw [← Option.some.inj hx]
              obtain ⟨hs1, hs2, hs3⟩ := nbScanGo_some t k b _ _ _ hscan
              have hs1' : index ≤ i := hs1
              have hs2' : i < index +
                  (min (index + t.H) t.BUCKET_SIZE - index) := hs2
              exact Inv_placeHop t b index i k v hinv hsch hbB hik hs1'
                (by omega) (by omega) (hs3 rfl)
            · rename_i i hscan
              rw [← Option.some.inj hx]
              obtain ⟨hs1, hs2, _⟩ := nbScanGo_some t k b _ _ _ hscan
              have hs1' : index ≤ i := hs1
              have hs2' : i < index +
                  (min (index + t.H) t.BUCKET_SIZE - index) := hs2
              exact Inv_bump t b i v hinv hbB (by omega)
            · split at hx
              · rename_i e hfe
                obtain ⟨he1, he2, he3⟩ := firstEmptyGo_some t b _ _ _ hfe
                exact ih t (Call.swapl k v b index e (e - (t.H - 1))) t'
                  (show CallOk t _ from
                    ⟨hsch, hbk, hik, by omega, he3, by omega, rfl⟩)
                  hinv hx
              · split at hx
                · cases hx
                · rename_i t1 hext
                  have h1 : Inv t1 := ih t Call.ext t1 trivial hinv hext
                  exact ih t1 (Call.ins k v) t' trivial h1 hx
      | swapl k v b index empty st =>
          obtain ⟨hsch, hbk, hik, hempS, hunE, hie, hst⟩ := hok
          rw [exec_swapl] at hx
          obtain ⟨hbl, htl, hhl, hrow, hhrow, hS0, hB0⟩ := hinv.1
          have hbB : b < t.BUCKET_NUMBER := by
            rw [hbk]
            exact bucketHash_lt t k hB0
          split at hx
          · split at hx
            · cases hx
            · rename_i t1 hext
              have h1 : Inv t1 := ih t Call.ext t1 trivial hinv hext
              exact ih t1 (Call.ins k v) t' trivial h1 hx
          · rename_i c hfh
            obtain ⟨hcs, hcpos⟩ := firstHopGo_some t b t.H st c hfh
            have hcS : c < t.BUCKET_SIZE := by
              by_contra hq
              rw [hopAt_oob t b c hinv.1 (Or.inr (by omega))] at hcpos
              exact absurd hcpos (by omega)
            split at hx
            · split at hx
              · exfalso
                rename_i hlt
                omega
              · exact ih t (Call.swapl k v b index empty
                    (empty - (t.H - 1))) t'
                  (show CallOk t _ from
                    ⟨hsch, hbk, hik, hempS, hunE, hie, rfl⟩) hinv hx
            · rename_i n htb
              obtain ⟨hnH, hbitn⟩ := topBitBelow_some _ _ _ htb
              split at hx
              · split at hx
                · cases hx
                · rename_i t1 hext
                  have h1 : Inv t1 := ih t Call.ext t1 trivial hinv hext
                  exact ih t1 (Call.ins k v) t' trivial h1 hx
              · rename_i hse'
                have hse : c + (t.H - 1 - n) < empty := by omega
                have hec : empty ≤ c + (t.H - 1) := by omega
                have hInv2 := Inv_swapMove t b c n (c + (t.H - 1 - n)) empty
                  hinv hsch hbB hcS hnH hbitn rfl hse hempS hunE hec
                have hbb2 : b < t.buckets.length := by omega
                have hsrcL2 : c + (t.H - 1 - n) <
                    (t.buckets.getD b []).length := by
                  rw [hrow b hbB]
                  omega
                have hempL2 : empty < (t.buckets.getD b []).length := by
                  rw [hrow b hbB]
                  omega
                have hunSrc : ((swapMove t b c n (c + (t.H - 1 - n))
                    empty).nodeAt b (c + (t.H - 1 - n))).taken = false := by
                  rw [nodeAt_swapMove t b c n (c + (t.H - 1 - n)) empty
                    hbb2 hsrcL2 hempL2, if_pos ⟨rfl, rfl⟩]
                  rfl
                split at hx
                · rename_i hlt
                  rw [← Option.some.inj hx]
                  refine Inv_placeHop (swapMove t b c n (c + (t.H - 1 - n))
                      empty) b index (c + (t.H - 1 - n)) k v hInv2 hsch hbB
                    hik ?_ ?_ ?_ hunSrc
                  · omega
                  · show c + (t.H - 1 - n) < index + t.H
                    omega
                  · show c + (t.H - 1 - n) < t.BUCKET_SIZE
                    omega
                · rename_i hge
                  refine ih (swapMove t b c n (c + (t.H - 1 - n)) empty)
                    (Call.swapl k v b index (c + (t.H - 1 - n))
                      ((c + (t.H - 1 - n)) - (t.H - 1))) t' ?_ hInv2 hx
                  refine ⟨hsch, hbk, hik, ?_, hunSrc, ?_, rfl⟩
                  · show c + (t.H - 1 - n) < t.BUCKET_SIZE
                    omega
                  · show index + t.H ≤ c + (t.H - 1 - n)
                    omega

/-! ## The C5 and C8 theorems -/

theorem exec_scheme :
    ∀ (fuel : Nat) (t : HashTable) (c : Call) (t' : HashTable),
      exec fuel t c = some t' → t'.scheme = t.scheme := by
  intro fuel
  induction fuel with
  | zero =>
      intro t c t' hx
      rw [exec_zero] at hx
      cases hx
  | succ f ih =>
      intro t c t' hx
      cases c with
      | ins k v =>
          rw [exec_ins] at hx
          split at hx
          · cases hx
          · rename_i t1 hpre
            have h1 : t1.scheme = t.scheme := ih t _ t1 hpre
            split at hx
            · split at hx
              · rw [ih t1 _ t' hx, h1]
              · split at hx
                · rw [← Option.some.inj hx]
                  exact h1
                · split at hx
                  · rw [← Option.some.inj hx]
                    exact h1
                  · rw [ih _ _ t' hx]
                    exact h1
            · split at hx
              · cases hx
              · rename_i t2 hext
                rw [ih t2 _ t' hx, ih t1 Call.ext t2 hext]
                exact h1
      | pre k v is =>
          cases is with
          | nil =>
              rw [exec_pre_nil] at hx
              rw [← Option.some.inj hx]
          | cons i rest =>
              rw [exec_pre_cons] at hx
              split at hx
              · split at hx
                · cases hx
                · rename_i t1 hext
                  split at hx
                  · cases hx
                  · rename_i t2 hins
                    rw [ih t2 _ t' hx, ih t1 _ t2 hins,
                      ih t Call.ext t1 hext]
              · exact ih t _ t' hx
      | ext =>
          rw [exec_ext] at hx
          split at hx
          · cases hx
          · rw [ih _ _ t' hx, scheme_freshDoubled]
      | reins nds =>
          cases nds with
          | nil =>
              rw [exec_reins_nil] at hx
              rw [← Option.some.inj hx]
          | cons nd rest =>
              rw [exec_reins_cons] at hx
              split at hx
              · cases hx
              · rename_i t1 hins
                rw [ih t1 _ t' hx, ih t _ t1 hins]
      | hop k v b index =>
          rw [exec_hop] at hx
          split at hx
          · split at hx
            · cases hx
            · rename_i t1 hext
              rw [ih t1 _ t' hx, ih t Call.ext t1 hext]
          · split at hx
            · rw [← Option.some.inj hx]
              rfl
            · rw [← Option.some.inj hx]
              rfl
            · split at hx
              · exact ih t _ t' hx
              · split at hx
                · cases hx
                · rename_i t1 hext
                  rw [ih t1 _ t' hx, ih t Call.ext t1 hext]
      | swapl k v b index empty st =>
          rw [exec_swapl] at hx
          split at hx
          · split at hx
            · cases hx
            · rename_i t1 hext
              rw [ih t1 _ t' hx, ih t Call.ext t1 hext]
          · split at hx
            · split at hx
              · rw [← Option.some.inj hx]
                rfl
              · exact ih t _ t' hx
            · split at hx
              · split at hx
                · cases hx
                · rename_i t1 hext
                  rw [ih t1 _ t' hx, ih t Call.ext t1 hext]
              · split at hx
                · rw [← Option.some.inj hx]
                  rfl
                · exact (ih _ _ t' hx).trans rfl

theorem insertSeq_scheme (fuel : Nat) :
    ∀ (ps : List ((Field × Field) × Nat)) (t t' : HashTable),
      insertSeq fuel t ps = some t' → t'.scheme = t.scheme := by
  intro ps
  induction ps with
  | nil =>
      intro t t' hx
      rw [insertSeq] at hx
      rw [← Option.some.inj hx]
  | cons p rest ihp =>
      intro t t' hx
      obtain ⟨kp, vp⟩ := p
      rw [insertSeq] at hx
      cases hins : exec fuel t (Call.ins kp vp) with
      | none =>
          rw [hins] at hx
          cases hx
      | some t1 =>
          rw [hins] at hx
          rw [ihp t1 t' hx, exec_scheme fuel t _ t1 hins]

theorem Inv_new (S B : Nat) (hf : Field → Nat) (sche : HashScheme)
    (H0 : Nat) (op : ExtendOption) (lf : Nat × Nat)
    (hS : 0 < S) (hB : 0 < B) :
    Inv (HashTable.new S B hf sche H0 op lf) := by
  refine ⟨⟨List.length_replicate _ _, List.length_replicate _ _,
    List.length_replicate _ _, ?_, ?_,
    show 0 < S from hS, show 0 < B from hB⟩, ?_, ?_⟩
  · intro b hb
    show ((List.replicate B (List.replicate S defaultNode)).getD
      b []).length = S
    rw [getD_replicate, if_pos (show b < B from hb)]
    exact List.length_replicate _ _
  · intro b hb
    show ((List.replicate B (List.replicate S 0)).getD b []).length = S
    rw [getD_replicate, if_pos (show b < B from hb)]
    exact List.length_replicate _ _
  · intro b hb
    rw [countAt_new]
    show 0 = countTaken ((List.replicate B
      (List.replicate S defaultNode)).getD b [])
    rw [getD_replicate]
    split
    · rw [countTaken_replicate]
    · rfl
  · intro _ b hb
    constructor
    · intro j hj htk
      rw [nodeAt_new] at htk
      exact absurd htk (by decide)
    · intro h0 hh0
      rw [hopAt_new]
      refine ⟨Nat.two_pow_pos _, ?_⟩
      intro n hn
      rw [Nat.zero_testBit]
      constructor
      · intro hc
        cases hc
      · intro hc
        rw [nodeAt_new] at hc
        exact absurd hc.2.1 (by decide)

theorem Inv_insertSeq (fuel : Nat) :
    ∀ (ps : List ((Field × Field) × Nat)) (t t' : HashTable), Inv t →
      insertSeq fuel t ps = some t' → Inv t' := by
  intro ps
  induction ps with
  | nil =>
      intro t t' hinv hx
      rw [insertSeq] at hx
      rw [← Option.some.inj hx]
      exact hinv
  | cons p rest ihp =>
      intro t t' hinv hx
      obtain ⟨kp, vp⟩ := p
      rw [insertSeq] at hx
      cases hins : exec fuel t (Call.ins kp vp) with
      | none =>
          rw [hins] at hx
          cases hx
      | some t1 =>
          rw [hins] at hx
          exact ihp t1 t'
            (Inv_preserve fuel t (Call.ins kp vp) t1 trivial hinv hins) hx

/-- C8, confirmed.  For every table built by `HashTable::new` with
positive dimensions — any scheme, hash function, growth policy and load
factor — and every completed sequence of `insert` calls (including calls
that trigger `extend` / rehashing), each bucket's `taken_count[b]` equals
the number of slots of `buckets[b]` whose `taken` flag is set.  With the
empty sequence this also covers the freshly constructed table. -/
theorem C8_theorem (S B : Nat) (hf : Field → Nat) (sche : HashScheme)
    (H0 : Nat) (op : ExtendOption) (lf : Nat × Nat)
    (ps : List ((Field × Field) × Nat)) (fuel : Nat) (t' : HashTable)
    (hS : 0 < S) (hB : 0 < B)
    (hrun : insertSeq fuel (HashTable.new S B hf sche H0 op lf) ps =
      some t') :
    ∀ b, b < t'.BUCKET_NUMBER →
      t'.countAt b = countTaken (t'.buckets.getD b []) :=
  (Inv_insertSeq fuel ps _ t'
    (Inv_new S B hf sche H0 op lf hS hB) hrun).2.1

/-- C8 witness: three Hopscotch inserts on an `8 × 1` table (the third a
repeat of the first key), checked at bucket 0, whose counter evaluates
to 2. -/
theorem C8_witness :
    runC8.countAt 0 = countTaken (runC8.buckets.getD 0 []) ∧
    runC8.countAt 0 = 2 := by
  constructor
  · exact C8_theorem 8 1 zeroHash HashScheme.Hopscotch 4
      ExtendOption.ExtendBucketSize (1, 1)
      [(keyA, 1), (keyB, 2), (keyA, 3)] 30 runC8 (by omega) (by omega)
      rfl 0 (by decide)
  · decide

/-- C5, confirmed.  After any completed sequence of `insert` calls into a
Hopscotch table built by `HashTable::new` with positive dimensions, every
occupied slot `j` of bucket `b` lies in the window `[h, h + H)` of its
key's home slot `h = slotHash key` (in particular `j - h`, equal to
`(j - h) mod S` since both are below `S`, is `< H`), the MSB-first bit
`H - 1 - (j - h)` of `hop_info[b][h]` is set, and any set bit of any word
of bucket `b` that names slot `j` is exactly that bit of `hop_info[b][h]`.
-/
theorem C5_theorem (S B : Nat) (hf : Field → Nat) (H0 : Nat)
    (op : ExtendOption) (lf : Nat × Nat)
    (ps : List ((Field × Field) × Nat)) (fuel : Nat) (t' : HashTable)
    (hS : 0 < S) (hB : 0 < B)
    (hrun : insertSeq fuel
      (HashTable.new S B hf HashScheme.Hopscotch H0 op lf) ps = some t') :
    ∀ b j, b < t'.BUCKET_NUMBER → j < t'.BUCKET_SIZE →
      (t'.nodeAt b j).taken = true →
      slotHash t' (t'.nodeAt b j).key ≤ j ∧
      j - slotHash t' (t'.nodeAt b j).key < t'.H ∧
      (t'.hopAt b (slotHash t' (t'.nodeAt b j).key)).testBit
        (t'.H - 1 - (j - slotHash t' (t'.nodeAt b j).key)) = true ∧
      (∀ h n, h < t'.BUCKET_SIZE → n < t'.H →
        (t'.hopAt b h).testBit n = true → h + (t'.H - 1 - n) = j →
        h = slotHash t' (t'.nodeAt b j).key ∧
        n = t'.H - 1 - (j - slotHash t' (t'.nodeAt b j).key)) := by
  intro b j hb hj htk
  have hinv := Inv_insertSeq fuel ps _ t'
    (Inv_new S B hf HashScheme.Hopscotch H0 op lf hS hB) hrun
  have hsch : t'.scheme = HashScheme.Hopscotch := by
    rw [insertSeq_scheme fuel ps _ t' hrun]
    rfl
  obtain ⟨hoff, hwords⟩ := hinv.2.2 hsch b hb
  have hj0 := hoff j hj htk
  have hS' : 0 < t'.BUCKET_SIZE := hinv.1.2.2.2.2.2.1
  have hh0S : slotHash t' (t'.nodeAt b j).key < t'.BUCKET_SIZE :=
    slotHash_lt t' _ (by omega)
  have hword := hwords (slotHash t' (t'.nodeAt b j).key) hh0S
  refine ⟨hj0.1, by omega, ?_, ?_⟩
  · have hn : t'.H - 1 - (j - slotHash t' (t'.nodeAt b j).key) < t'.H := by
      omega
    have hcl : slotHash t' (t'.nodeAt b j).key +
        (t'.H - 1 - (t'.H - 1 - (j - slotHash t' (t'.nodeAt b j).key))) =
        j := by
      omega
    refine (hword.2 _ hn).mpr ?_
    rw [hcl]
    exact ⟨hj, htk, rfl⟩
  · intro h n hhS hnH hbit hclaim
    obtain ⟨d1, d2, d3⟩ := ((hwords h hhS).2 n hnH).mp hbit
    rw [hclaim] at d3
    refine ⟨d3.symm, ?_⟩
    omega

/-- C5 witness: two Hopscotch inserts on an `8 × 1` table; the occupant
of slot 1 (the second key, home slot 0) is claimed by bit
`H - 1 - 1 = 2` of `hop_info[0][0]`. -/
theorem C5_witness :
    (runC5.nodeAt 0 1).taken = true ∧
    slotHash runC5 (runC5.nodeAt 0 1).key ≤ 1 ∧
    1 - slotHash runC5 (runC5.nodeAt 0 1).key < runC5.H ∧
    (runC5.hopAt 0 (slotHash runC5 (runC5.nodeAt 0 1).key)).testBit
      (runC5.H - 1 - (1 - slotHash runC5 (runC5.nodeAt 0 1).key)) =
      true := by
  have h := C5_theorem 8 1 zeroHash 4 ExtendOption.ExtendBucketSize (1, 1)
    [(keyA, 1), (keyB, 2)] 30 runC5 (by omega) (by omega) rfl 0 1
    (by decide) (by decide) (by decide)
  exact ⟨by decide, h.1, h.2.1, h.2.2.1⟩

end RustHash
